import Mathlib

/-!
Shallow embedding of the schema-aware transformation layer in
`src/patito/polars.py` (the `LazyFrame` / `DataFrame` wrappers): the
derivation engine (`derive` / `_derive_column`), the alias resolver
(`unalias` and its inner `to_expr`), the cast policy (`cast`), single-row
extraction (`get`) and default null-filling (`fill_null(strategy="defaults")`).

The schema accessors consumed by the source (`_schema_properties`,
`dtypes`, `valid_dtypes`, `column_infos`, `model_fields`,
`derived_columns`, `defaults`) live outside the transformation layer; they
are modelled as a `FieldInfo` record per field, following the interface the
spec describes.  The columnar engine (polars expression evaluation, casts,
`with_columns`, `select`) is likewise external and is modelled by small
executable functions.
-/

set_option maxRecDepth 8000

/-- Column data types of the underlying columnar engine (the spec's
`TypeTag`s), restricted to the tags this development exercises. -/
inductive Dtype where
  | i64
  | i32
  | u16
  | u8
  | f64
  | strT
  | boolT
  | categorical
  | listT (t : Dtype)
deriving DecidableEq, Repr

/-- Scalar cell values (elements of list-valued cells). -/
inductive SVal where
  | null
  | vint (n : Int)
  | vstr (s : String)
  | vbool (b : Bool)
deriving DecidableEq, Repr

/-- Cell values. `null` models a missing value; `vlist` a list-valued cell
whose elements are scalars (the shape the `AliasPath` support needs). -/
inductive Val where
  | null
  | vint (n : Int)
  | vstr (s : String)
  | vbool (b : Bool)
  | vlist (xs : List SVal)
deriving DecidableEq, Repr

def svalToVal : SVal → Val
  | .null => .null
  | .vint n => .vint n
  | .vstr s => .vstr s
  | .vbool b => .vbool b

/-- Model of the external engine's cast kernel (`Expr.cast` /
`Series` construction with a dtype).  The claims under verification are
about WHICH cast the source decides to apply, never about the numeric
kernel itself, which the spec declares external. -/
def castVal (d : Dtype) (v : Val) : Val :=
  match v with
  | .null => .null
  | .vint n =>
    match d with
    | .i64 => .vint n
    | .i32 => .vint (Int.emod n 4294967296)
    | .u16 => .vint (Int.emod n 65536)
    | .u8 => .vint (Int.emod n 256)
    | .strT => .vstr (toString n)
    | .boolT => .vbool (n != 0)
    | _ => .null
  | .vstr s =>
    match d with
    | .strT => .vstr s
    | .categorical => .vstr s
    | .i64 => (s.toInt?).elim Val.null Val.vint
    | .u16 => (s.toInt?).elim Val.null (fun n => Val.vint (Int.emod n 65536))
    | _ => .null
  | .vbool b =>
    match d with
    | .boolT => .vbool b
    | .i64 => .vint (if b then 1 else 0)
    | _ => .null
  | .vlist xs =>
    match d with
    | .listT _ => .vlist xs
    | _ => .null

/-- A named, typed column. -/
structure Column where
  name : String
  dtype : Dtype
  values : List Val
deriving DecidableEq, Repr

/-- A table: an ordered sequence of named typed columns (a polars
`DataFrame`, or the result a `LazyFrame` plan collects to). -/
abbrev Frame := List Column

def colNames (f : Frame) : List String := f.map (·.name)

def findCol (f : Frame) (n : String) : Option Column :=
  f.find? (fun c => c.name == n)

/-- Row count of a frame (polars `height`; all columns share it in a
well-formed frame). -/
def frameHeight (f : Frame) : Nat :=
  match f with
  | [] => 0
  | c :: _ => c.values.length

/-- All columns have length `h` (the row-count invariant polars maintains). -/
def WFFrame (f : Frame) (h : Nat) : Prop := ∀ c ∈ f, c.values.length = h

instance instDecWFFrame (f : Frame) (h : Nat) : Decidable (WFFrame f h) :=
  inferInstanceAs (Decidable (∀ c ∈ f, c.values.length = h))

/-- polars `with_columns` with a single named result: replace an existing
column in place (keeping its position) or append a new one at the end. -/
def withColumn (f : Frame) (n : String) (d : Dtype) (vals : List Val) : Frame :=
  if (colNames f).contains n then
    f.map (fun c => if c.name = n then ⟨n, d, vals⟩ else c)
  else f ++ [⟨n, d, vals⟩]

/-- polars `select` with a list of column names; fails on a missing name. -/
def selectCols (f : Frame) : List String → Option Frame
  | [] => some []
  | n :: ns => (findCol f n).bind (fun c => (selectCols f ns).map (fun g => c :: g))

/-- Shallow polars expression language: exactly the forms the source
constructs (`pl.col`, `fill_null(value=...)`, `list.get(i, null_on_oob=True)`)
plus literals and arithmetic so that `derived_from` expressions such as
`2 * pl.col("bar")` are representable. -/
inductive PExpr where
  | col (n : String)
  | litInt (n : Int)
  | add (a b : PExpr)
  | mul (a b : PExpr)
  | fillNullE (a b : PExpr)
  | listGet (src : String) (i : Int)
deriving DecidableEq, Repr

/-- Every column name an expression reads. -/
def PExpr.colRefs : PExpr → List String
  | .col n => [n]
  | .litInt _ => []
  | .add a b => a.colRefs ++ b.colRefs
  | .mul a b => a.colRefs ++ b.colRefs
  | .fillNullE a b => a.colRefs ++ b.colRefs
  | .listGet s _ => [s]

/-- polars `Expr.meta.root_names()`: the distinct root column names of an
expression. -/
def PExpr.rootNames (e : PExpr) : List String := e.colRefs.dedup

def addVal : Val → Val → Val
  | .vint a, .vint b => .vint (a + b)
  | _, _ => .null

def mulVal : Val → Val → Val
  | .vint a, .vint b => .vint (a * b)
  | _, _ => .null

/-- Row-wise `fill_null(value = ...)`: keep non-null left values, take the
right-hand value where the left is null. -/
def fillVals (a b : List Val) : List Val :=
  a.zipWith (fun x y => if x = Val.null then y else x) b

/-- polars `list.get(i, null_on_oob=True)` on one cell: index a list-valued
cell, negative indices count from the end, null on out-of-bounds or on a
non-list cell. -/
def listGetVal (i : Int) (v : Val) : Val :=
  match v with
  | .vlist xs =>
    let j : Int := if i < 0 then i + xs.length else i
    if j < 0 then Val.null else svalToVal (xs.getD j.toNat SVal.null)
  | _ => .null

/-- Row-wise expression evaluation over a frame of height `h` (the external
engine); fails (`none`) on a missing column reference. -/
def evalExpr (f : Frame) (h : Nat) : PExpr → Option (List Val)
  | .col n => (findCol f n).map (·.values)
  | .litInt n => some (List.replicate h (.vint n))
  | .add a b =>
    (evalExpr f h a).bind fun va => (evalExpr f h b).map fun vb => va.zipWith addVal vb
  | .mul a b =>
    (evalExpr f h a).bind fun va => (evalExpr f h b).map fun vb => va.zipWith mulVal vb
  | .fillNullE a b =>
    (evalExpr f h a).bind fun va => (evalExpr f h b).map fun vb => fillVals va vb
  | .listGet s i => (findCol f s).map (fun c => c.values.map (listGetVal i))

/-- `Field(derived_from=...)` payload: a source column name (a string) or a
polars expression; any other type raises `TypeError` in the source, which a
closed sum renders unrepresentable. -/
inductive DerivedFrom where
  | colRef (src : String)
  | expr (e : PExpr)
deriving DecidableEq, Repr

/-- The column names a derivation reads. -/
def DerivedFrom.sources : DerivedFrom → List String
  | .colRef s => [s]
  | .expr e => e.colRefs

/-- One element of a pydantic `AliasPath`. -/
inductive PathItem where
  | strI (s : String)
  | intI (i : Int)
deriving DecidableEq, Repr

/-- One candidate of a pydantic `AliasChoices` (pydantic restricts the
candidates to plain strings and `AliasPath`s). -/
inductive AliasItem where
  | direct (src : String)
  | path (items : List PathItem)
deriving DecidableEq, Repr

/-- A pydantic `validation_alias`: a plain string, an `AliasPath`, or an
`AliasChoices` over string / path candidates. -/
inductive AliasSpec where
  | direct (src : String)
  | path (items : List PathItem)
  | choices (cs : List AliasItem)
deriving DecidableEq, Repr

/-- Python truthiness of a `validation_alias` value, as used by the
`any(fi.validation_alias for ...)` early return in `unalias`: `None` is
handled by the caller, an empty string is falsy, and `AliasPath` /
`AliasChoices` objects are always truthy. -/
def aliasTruthy : AliasSpec → Bool
  | .direct s => s != ""
  | _ => true

/-- One field of the model schema as seen through the external Schema
Accessor interface the source consumes (`_schema_properties`, `dtypes`,
`valid_dtypes`, `column_infos`, `model_fields`, `defaults`).  Modelled from
the spec: the accessor itself is declared out of scope (spec sections 3
and 6); `hasDtype`/`dtypeOverride` model the `"dtype" in properties[c]`
override, `defaultDtype` models `model.dtypes[c]`, `validDtypes` models
`model.valid_dtypes[c]`, `derivedFrom` models
`column_infos[c].derived_from`, `vAlias` models
`model_fields[c].validation_alias` and `defaultVal` membership models
`model.defaults`. -/
structure FieldInfo where
  name : String
  hasDtype : Bool
  dtypeOverride : Dtype
  validDtypes : List Dtype
  defaultDtype : Dtype
  derivedFrom : Option DerivedFrom
  vAlias : Option AliasSpec
  defaultVal : Option Val
deriving DecidableEq, Repr

/-- A schema: its fields in declaration order (names unique by the spec's
invariant; theorems that need uniqueness carry it as a hypothesis). -/
abbrev Schema := List FieldInfo

/-- `model._schema_properties()` keys: field names in declaration order. -/
def schemaProps (s : Schema) : List String := s.map (·.name)

def schemaFind (s : Schema) (n : String) : Option FieldInfo :=
  s.find? (fun fi => fi.name == n)

/-- Modelled from the spec: `model.derived_columns` (external Schema
Accessor) — the names of the fields carrying a `derived_from` declaration,
in declaration order (spec section 4.1, default target list). -/
def derivedNames (s : Schema) : List String :=
  (s.filter (fun fi => fi.derivedFrom.isSome)).map (·.name)

def fieldTruthy (fi : FieldInfo) : Bool :=
  match fi.vAlias with
  | none => false
  | some va => aliasTruthy va

/-- Worker for `LazyFrame._derive_column`.  `Sum.inl c` derives one column;
`Sum.inr rs` is the `while root_cols: root_cols.pop()` loop over expression
roots (the caller passes the reversed root list, since `.pop()` takes from
the end).  `fuel` models the finite Python call stack: the source recursion
carries no other bound, and exhausting the stack (a `RecursionError`) is
`none`.  Returns the new frame together with the `derived_columns` names in
derivation order. -/
def deriveGo (s : Schema) : Nat → Frame → (String ⊕ List String) → Option (Frame × List String)
  | 0, _, _ => none
  | fuel + 1, f, Sum.inl c =>
    match schemaFind s c with
    | none => some (f, [])
    | some fi =>
      match fi.derivedFrom with
      | none => some (f, [])
      | some (DerivedFrom.colRef src) =>
        (evalExpr f (frameHeight f) (PExpr.col src)).map
          (fun vs => (withColumn f c fi.defaultDtype (vs.map (castVal fi.defaultDtype)), [c]))
      | some (DerivedFrom.expr e) =>
        (deriveGo s fuel f (Sum.inr e.rootNames.reverse)).bind
          (fun p => (evalExpr p.1 (frameHeight p.1) e).map
            (fun vs =>
              (withColumn p.1 c fi.defaultDtype (vs.map (castVal fi.defaultDtype)),
                p.2 ++ [c])))
  | _ + 1, f, Sum.inr [] => some (f, [])
  | fuel + 1, f, Sum.inr (r :: rs) =>
    (deriveGo s fuel f (Sum.inl r)).bind
      (fun p => (deriveGo s fuel p.1 (Sum.inr rs)).map (fun q => (q.1, p.2 ++ q.2)))

/-- `LazyFrame._derive_column`: derive one requested column, recursively
deriving the roots of an `Expression` source first. -/
def deriveColumn (s : Schema) (fuel : Nat) (f : Frame) (c : String) :
    Option (Frame × List String) :=
  deriveGo s fuel f (Sum.inl c)

/-- The root loop of `_derive_column` (roots already reversed by the
caller, matching `root_cols.pop()`). -/
def deriveRoots (s : Schema) (fuel : Nat) (f : Frame) (rs : List String) :
    Option (Frame × List String) :=
  deriveGo s fuel f (Sum.inr rs)

/-- The top-level loop of `LazyFrame.derive`: process each requested column,
skipping one already recorded in the accumulated `derived_columns` list. -/
def deriveLoop (s : Schema) (fuel : Nat) (f : Frame) :
    List String → List String → Option (Frame × List String)
  | [], derived => some (f, derived)
  | c :: rest, derived =>
    if derived.contains c then deriveLoop s fuel f rest derived
    else
      (deriveColumn s fuel f c).bind
        (fun p => deriveLoop s fuel p.1 rest (derived ++ p.2))

/-- The first segment of `out_cols`: schema-declared fields present in the
union set, in declaration order (`[x for x in props if x in
original_columns.union(to_derive)]`). -/
def deriveFirstCols (s : Schema) (uset : List String) : List String :=
  (schemaProps s).filter (fun x => uset.contains x)

/-- The full `out_cols` list: the schema segment followed by the remaining
members of the union set, in the set's iteration order (`[x for x in
original_columns.union(to_derive) if x not in out_cols]`). -/
def deriveOutCols (s : Schema) (uset : List String) : List String :=
  deriveFirstCols s uset
    ++ uset.filter (fun x => !(deriveFirstCols s uset).contains x)

/-- `LazyFrame.derive`.  `uset` models the iteration order of the Python set
`original_columns.union(to_derive)`: hash-based and unspecified, so it is a
parameter, constrained in the theorems (via `EnumOf`) to enumerate exactly
that set.  `columns = none` is the Python `columns=None` default. -/
def derive (s : Schema) (uset : List String) (fuel : Nat)
    (columns : Option (List String)) (f : Frame) : Option Frame :=
  (deriveLoop s fuel f (columns.getD (derivedNames s)) []).bind
    (fun p => selectCols p.1 (deriveOutCols s uset))

/-- The full `derived_columns` accumulator of one `derive` invocation, in
derivation order (one entry per `with_columns` definition emitted). -/
def deriveTrace (s : Schema) (fuel : Nat) (columns : Option (List String))
    (f : Frame) : Option (List String) :=
  (deriveLoop s fuel f (columns.getD (derivedNames s)) []).map (·.2)

/-- `uset` is an enumeration of the set of elements of `l`: duplicate-free
and carrying exactly the members of `l` (what iterating a Python set
guarantees — membership, but no particular order). -/
def EnumOf (uset l : List String) : Prop :=
  uset.Nodup ∧ (∀ x ∈ uset, x ∈ l) ∧ (∀ x ∈ l, x ∈ uset)

instance instDecEnumOf (uset l : List String) : Decidable (EnumOf uset l) :=
  inferInstanceAs (Decidable (uset.Nodup ∧ (∀ x ∈ uset, x ∈ l) ∧ (∀ x ∈ l, x ∈ uset)))

/-- The output column order claim C1 asserts: schema-declared fields present
in (original columns ∪ requested derived columns), in declaration order,
followed by the remaining original columns in their original relative
order. -/
def claimedOrderC1 (s : Schema) (orig toDer : List String) : List String :=
  (schemaProps s).filter (fun x => orig.contains x || toDer.contains x)
    ++ orig.filter (fun x => !(schemaProps s).contains x)

/-- `to_expr` on an `AliasPath`: anything but a two-element path with an
integer second component raises `NotImplementedError` (outer `none`); a
non-string first component is never found among the column names, giving
Python `None` (inner `none`). -/
def toExprPath (f : Frame) (items : List PathItem) : Option (Option PExpr) :=
  match items with
  | [PathItem.strI s, PathItem.intI i] =>
    some (if (colNames f).contains s then some (PExpr.listGet s i) else none)
  | [PathItem.intI _, PathItem.intI _] => some none
  | _ => none

/-- `to_expr` on one `AliasChoices` candidate. -/
def toExprItem (f : Frame) : AliasItem → Option (Option PExpr)
  | .direct s =>
    some (if (colNames f).contains s then some (PExpr.col s) else none)
  | .path items => toExprPath f items

/-- The `AliasChoices` loop of `to_expr`: `local_expr` starts as Python
`None`; each candidate that resolves either becomes the accumulator or is
used to `fill_null` the accumulator's still-null rows. -/
def chooseFold (f : Frame) (acc : Option PExpr) : List AliasItem → Option (Option PExpr)
  | [] => some acc
  | c :: cs =>
    (toExprItem f c).bind (fun part =>
      match part with
      | none => chooseFold f acc cs
      | some p =>
        chooseFold f
          (some (match acc with
            | none => p
            | some l => PExpr.fillNullE l p)) cs)

/-- `LazyFrame.unalias.to_expr`: resolve a `validation_alias` to an optional
polars expression against the input frame (outer `none` = raised
`NotImplementedError`, inner `none` = Python `None`). -/
def toExpr (f : Frame) : AliasSpec → Option (Option PExpr)
  | .direct s =>
    some (if (colNames f).contains s then some (PExpr.col s) else none)
  | .path items => toExprPath f items
  | .choices cs => chooseFold f none cs

/-- The named-expression list `unalias` builds, one pass over the model
fields in declaration order. -/
def fieldExprs (f : Frame) : Schema → Option (List (String × PExpr))
  | [] => some []
  | fi :: rest =>
    match fi.vAlias with
    | none => (fieldExprs f rest).map (fun tl => (fi.name, PExpr.col fi.name) :: tl)
    | some va =>
      (toExpr f va).bind (fun oe =>
        (fieldExprs f rest).map (fun tl =>
          if (colNames f).contains fi.name then
            match oe with
            | none => (fi.name, PExpr.col fi.name) :: tl
            | some e => (fi.name, PExpr.fillNullE (PExpr.col fi.name) e) :: tl
          else
            match oe with
            | some e => (fi.name, e) :: tl
            | none => tl))

/-- Result dtype the engine infers for the expressions `unalias` builds
(model of polars schema inference, external to the source). -/
def inferDtype (f : Frame) : PExpr → Dtype
  | .col n => (findCol f n).elim Dtype.i64 (·.dtype)
  | .litInt _ => .i64
  | .add a _ => inferDtype f a
  | .mul a _ => inferDtype f a
  | .fillNullE a _ => inferDtype f a
  | .listGet n _ =>
    match (findCol f n).map (·.dtype) with
    | some (Dtype.listT t) => t
    | _ => .i64

/-- polars `select` over a list of named expressions, all evaluated against
the input frame; fails on a missing column reference. -/
def selectExprs (f : Frame) (h : Nat) : List (String × PExpr) → Option Frame
  | [] => some []
  | (n, e) :: rest =>
    (evalExpr f h e).bind (fun vs =>
      (selectExprs f h rest).map (fun g => Column.mk n (inferDtype f e) vs :: g))

/-- `LazyFrame.unalias`.  `none` models a raised error (a
`NotImplementedError` from `to_expr`, or a missing-column selection error
when the plan is collected). -/
def unalias (s : Schema) (f : Frame) : Option Frame :=
  if s.any fieldTruthy then
    (fieldExprs f s).bind (fun es => selectExprs f (frameHeight f) es)
  else some f

def castColumn (d : Dtype) (c : Column) : Column :=
  ⟨c.name, d, c.values.map (castVal d)⟩

/-- Python `columns = columns or self.collect_schema().names()`: both `None`
and an empty list (falsy) fall back to every column name. -/
def effTargets (columns : Option (List String)) (names : List String) : List String :=
  match columns with
  | none => names
  | some [] => names
  | some l => l

/-- `LazyFrame.cast`: one expression per existing column, chosen by the
override / valid-dtypes / default-dtype policy. -/
def castFrame (s : Schema) (strict : Bool) (columns : Option (List String))
    (f : Frame) : Frame :=
  f.map (fun c =>
    if !(effTargets columns (colNames f)).contains c.name
        || !(schemaProps s).contains c.name then c
    else
      match schemaFind s c.name with
      | none => c
      | some fi =>
        if fi.hasDtype then castColumn fi.dtypeOverride c
        else if strict = false ∧ fi.validDtypes.contains c.dtype then c
        else castColumn fi.defaultDtype c)

/-- The cast decision exactly as claim C2 words it, reading the requested
target subset literally (`none` meaning every column). -/
def castSpecDecision (s : Schema) (strict : Bool) (targets : List String)
    (c : Column) : Column :=
  match schemaFind s c.name with
  | none => c
  | some fi =>
    if !targets.contains c.name then c
    else if fi.hasDtype then castColumn fi.dtypeOverride c
    else if strict = false ∧ fi.validDtypes.contains c.dtype then c
    else castColumn fi.defaultDtype c

/-- A single-row record, typed against the bound model
(`model.from_row`) or dynamically inferred (`_pydantic_model().from_row`,
the `UntypedRow` of all-`Any` fields); both external constructors are
modelled as tagged row values. -/
inductive RowRecord where
  | typed (fields : List (String × Val))
  | untyped (fields : List (String × Val))
deriving DecidableEq, Repr

/-- Outcome of `DataFrame.get`: one of the two cardinality errors (carrying
the formatted message) or the constructed record. -/
inductive GetResult where
  | rowDoesNotExist (msg : String)
  | multipleRowsReturned (msg : String)
  | ok (r : RowRecord)
deriving DecidableEq, Repr

/-- `DataFrame.filter` with a boolean row mask (the predicate expression is
external; its row-wise outcome is the mask). -/
def filterMask (f : Frame) (m : List Bool) : Frame :=
  f.map (fun c =>
    ⟨c.name, c.dtype,
      (c.values.zip m).filterMap (fun p => if p.2 then some p.1 else none)⟩)

/-- The single remaining row, as (column name, value) pairs. -/
def rowZero (f : Frame) : List (String × Val) :=
  f.map (fun c => (c.name, c.values.headD Val.null))

/-- `DataFrame.get`: filter by the optional predicate, enforce the
single-row cardinality, then build a typed record when a model is bound and
a dynamically inferred one otherwise. -/
def getRow (clsName : String) (hasModel : Bool) (mask : Option (List Bool))
    (f : Frame) : GetResult :=
  let row := match mask with | none => f | some m => filterMask f m
  if frameHeight row = 0 then
    GetResult.rowDoesNotExist (clsName ++ ".get() yielded 0 rows.")
  else if 1 < frameHeight row then
    GetResult.multipleRowsReturned
      (clsName ++ ".get() yielded " ++ toString (frameHeight row) ++ " rows.")
  else
    GetResult.ok
      (if hasModel then RowRecord.typed (rowZero row)
       else RowRecord.untyped (rowZero row))

/-- One cell of `fill_null(strategy="defaults")` on an existing column:
nulls become the default cast to the field's declared dtype
(`pl.lit(default, dtype)`). -/
def fillCell (d : Dtype) (dv : Val) (v : Val) : Val :=
  match v with
  | .null => castVal d dv
  | w => w

/-- One entry of the `with_columns` list that
`fill_null(strategy="defaults")` builds, for a field with a declared
default: fill the existing column's nulls with the typed default
(`pl.col(c).fill_null(pl.lit(default, dtype))`), or synthesize the absent
column (`pl.Series(c, [default], dtype)`, a length-1 series broadcast by
`with_columns` to the frame's height).  All reads are against the input
frame `f`; only the application is threaded through `acc`. -/
def fillStep (f : Frame) (acc : Frame) (fi : FieldInfo) : Frame :=
  match fi.defaultVal with
  | none => acc
  | some dv =>
    if (colNames f).contains fi.name then
      match findCol f fi.name with
      | some c =>
        withColumn acc fi.name c.dtype (c.values.map (fillCell fi.defaultDtype dv))
      | none => acc
    else
      withColumn acc fi.name fi.defaultDtype
        (List.replicate (frameHeight f) (castVal fi.defaultDtype dv))

/-- `DataFrame.fill_null(strategy="defaults")`: apply `fillStep` for every
schema field with a declared default (`model.defaults`), in declaration
order. -/
def fillNullDefaults (s : Schema) (f : Frame) : Frame :=
  List.foldl (fillStep f) f s

/-- The source columns a field's derivation reads (empty when the field is
not derived). -/
def fieldSources (fi : FieldInfo) : List String :=
  match fi.derivedFrom with
  | none => []
  | some df => df.sources

/-- Every derivation source is a base (non-derived) column: no
`ColumnReference` target or `Expression` root is itself a derived column. -/
def BaseSources (s : Schema) : Prop :=
  ∀ fi ∈ s, ∀ src ∈ fieldSources fi, src ∉ derivedNames s

instance instDecBaseSources (s : Schema) : Decidable (BaseSources s) :=
  inferInstanceAs (Decidable (∀ fi ∈ s, ∀ src ∈ fieldSources fi, src ∉ derivedNames s))

/-- A plain `i64` field with no override, derivation, alias or default. -/
def plainField (n : String) : FieldInfo :=
  ⟨n, false, Dtype.i64, [Dtype.i64], Dtype.i64, none, none, none⟩

/-- A plain field carrying a `derived_from` declaration. -/
def derivedField (n : String) (df : DerivedFrom) : FieldInfo :=
  ⟨n, false, Dtype.i64, [Dtype.i64], Dtype.i64, some df, none, none⟩

/-- A plain field carrying a `validation_alias`. -/
def aliasedField (n : String) (va : AliasSpec) : FieldInfo :=
  ⟨n, false, Dtype.i64, [Dtype.i64], Dtype.i64, none, some va, none⟩

def intCol (n : String) (vs : List Val) : Column := ⟨n, Dtype.i64, vs⟩

/-- C1 instance: one schema field `m`, absent from the input; two non-schema
input columns in the order `zz`, `aa`. -/
def exS1 : Schema := [plainField "m"]

def exF1 : Frame := [intCol "zz" [Val.vint 1], intCol "aa" [Val.vint 2]]

def exG1 : Frame := [intCol "aa" [Val.vint 2], intCol "zz" [Val.vint 1]]

/-- C2 instance: field `a` with default dtype `u16` and `i64` acceptable. -/
def exS2 : Schema :=
  [⟨"a", false, Dtype.i64, [Dtype.i64], Dtype.u16, none, none, none⟩]

def exF2 : Frame := [intCol "a" [Val.vint 1]]

/-- C3 instance: the single field's alias is the falsy empty string, which
also names an existing column. -/
def exS3 : Schema := [aliasedField "x" (AliasSpec.direct "")]

def exF3 : Frame := [intCol "x" [Val.null], intCol "" [Val.vint 5]]

/-- C3 witness instance: a canonical column with a null filled from a
truthy direct alias. -/
def wS3 : Schema := [aliasedField "x" (AliasSpec.direct "ax")]

def wF3 : Frame :=
  [intCol "x" [Val.null, Val.vint 2], intCol "ax" [Val.vint 7, Val.vint 9]]

/-- C4 instance: the spec's `Choices` scenario, candidates `A`, `B` with
`A = [null, 2]` and `B = [10, 20]`. -/
def exS4 : Schema :=
  [aliasedField "x" (AliasSpec.choices [AliasItem.direct "A", AliasItem.direct "B"])]

def exF4 : Frame :=
  [intCol "A" [Val.null, Val.vint 2], intCol "B" [Val.vint 10, Val.vint 20]]

/-- C5 instance: `x` has no alias and no column while `y`'s alias keeps the
early return from firing. -/
def exS5 : Schema := [plainField "x", aliasedField "y" (AliasSpec.direct "src")]

def exF5 : Frame := [intCol "src" [Val.vint 1]]

/-- C5 witness instances. -/
def wS5a : Schema := [plainField "p"]

def wF5a : Frame := [intCol "k" [Val.vint 0]]

def wS5b : Schema := [plainField "w", aliasedField "z" (AliasSpec.direct "zsrc")]

def wF5b : Frame := [intCol "zsrc" [Val.vint 3]]

def wS5c : Schema :=
  [aliasedField "q" (AliasSpec.direct "missing"), aliasedField "r" (AliasSpec.direct "rsrc")]

def wF5c : Frame := [intCol "rsrc" [Val.vint 4]]

/-- C6 instance: a two-cycle between the `Expression` roots of `a` and `b`. -/
def cycS : Schema :=
  [derivedField "a" (DerivedFrom.expr (PExpr.col "b")),
   derivedField "b" (DerivedFrom.expr (PExpr.col "a"))]

def exF6 : Frame := [intCol "foo" [Val.vint 1]]

/-- C7 instance: `x` is requested first, then re-derived as a root of `a`. -/
def exS7 : Schema :=
  [derivedField "x" (DerivedFrom.colRef "foo"),
   derivedField "a" (DerivedFrom.expr (PExpr.col "x"))]

def exF7 : Frame := [intCol "foo" [Val.vint 1]]

/-- C8 instance: the acyclic chain `a ← b ← foo` through `ColumnReference`
sources; `a` is derived from the stale input value of `b`. -/
def exS8 : Schema :=
  [derivedField "a" (DerivedFrom.colRef "b"),
   derivedField "b" (DerivedFrom.colRef "foo")]

def exF8 : Frame := [intCol "foo" [Val.vint 1], intCol "b" [Val.vint 10]]

def uset8 : List String := ["a", "b", "foo"]

def exG8a : Frame :=
  [intCol "a" [Val.vint 10], intCol "b" [Val.vint 1], intCol "foo" [Val.vint 1]]

def exG8b : Frame :=
  [intCol "a" [Val.vint 1], intCol "b" [Val.vint 1], intCol "foo" [Val.vint 1]]

/-- C8 witness instance: both derivations read only the base column `foo`. -/
def wS8 : Schema :=
  [derivedField "a" (DerivedFrom.colRef "foo"),
   derivedField "d" (DerivedFrom.expr (PExpr.mul (PExpr.litInt 2) (PExpr.col "foo")))]

def wF8 : Frame := [intCol "foo" [Val.vint 3]]

def wUset8 : List String := ["a", "d", "foo"]

def wG8 : Frame :=
  [intCol "a" [Val.vint 3], intCol "d" [Val.vint 6], intCol "foo" [Val.vint 3]]

/-- C10 witness instances: an existing column with a null, and an absent
column synthesized from its default. -/
def wS10 : Schema :=
  [⟨"price", false, Dtype.i64, [Dtype.i64], Dtype.i64, none, none, some (Val.vint 19)⟩,
   ⟨"extra", false, Dtype.i64, [Dtype.i64], Dtype.i64, none, none, some (Val.vint 7)⟩]

def wF10 : Frame := [intCol "price" [Val.vint 10, Val.null]]

/-- On the cyclic schema `cycS`, `_derive_column` consumes any stack bound
without returning: deriving `a` (or `b`) recurses forever. -/
theorem deriveColumn_cycS_none (fuel : Nat) :
    ∀ f : Frame, deriveColumn cycS fuel f "a" = none ∧ deriveColumn cycS fuel f "b" = none := by
  induction fuel using Nat.strong_induction_on with
  | _ fuel ih =>
    intro f
    match fuel with
    | 0 => exact ⟨rfl, rfl⟩
    | 1 => exact ⟨rfl, rfl⟩
    | (m + 2) =>
      have hb := (ih m (by omega) f).2
      have ha := (ih m (by omega) f).1
      constructor
      · show deriveGo cycS (m + 2) f (Sum.inl "a") = none
        have h2 : deriveGo cycS (m + 1) f (Sum.inr ["b"]) = none := by
          show (deriveGo cycS m f (Sum.inl "b")).bind _ = none
          rw [show deriveGo cycS m f (Sum.inl "b") = none from hb]
          rfl
        show (deriveGo cycS (m + 1) f (Sum.inr ["b"])).bind _ = none
        rw [h2]
        rfl
      · show deriveGo cycS (m + 2) f (Sum.inl "b") = none
        have h2 : deriveGo cycS (m + 1) f (Sum.inr ["a"]) = none := by
          show (deriveGo cycS m f (Sum.inl "a")).bind _ = none
          rw [show deriveGo cycS m f (Sum.inl "a") = none from ha]
          rfl
        show (deriveGo cycS (m + 1) f (Sum.inr ["a"])).bind _ = none
        rw [h2]
        rfl

/-- C6 (code_bug): the claim says `derive()` detects a cycle among
`Expression` derivation roots and fails with a cyclic-derivation error,
terminating on every input.  The source has no cycle detection: on the
cyclic schema `cycS` (`a` derived from `pl.col("b")`, `b` from
`pl.col("a")`) the recursion of `_derive_column` never returns — modelled
by the stack bound `fuel`, every bound is exhausted (`none`), for every
input frame; in Python this is an unbounded recursion ending in
`RecursionError`, not the claimed cyclic-derivation error. -/
theorem c6_cyclic_derivation_diverges :
    (∀ fuel : Nat, ∀ f : Frame, deriveColumn cycS fuel f "a" = none) ∧
    (∀ fuel : Nat, derive cycS ["a", "b", "foo"] fuel none exF6 = none) := by
  constructor
  · exact fun fuel f => (deriveColumn_cycS_none fuel f).1
  · intro fuel
    have ha : deriveColumn cycS fuel exF6 "a" = none :=
      (deriveColumn_cycS_none fuel exF6).1
    have h1 : deriveLoop cycS fuel exF6 ["a", "b"] [] = none := by
      show (deriveColumn cycS fuel exF6 "a").bind _ = none
      rw [ha]
      rfl
    show (deriveLoop cycS fuel exF6 ["a", "b"] []).bind _ = none
    rw [h1]
    rfl

/-- C1 counterexample: with one schema field `m` absent from the input, no
derived columns, and the input columns in the order `zz`, `aa`, the Python
set `original_columns.union(to_derive)` may legitimately enumerate as
`["aa", "zz"]` (hash order; `EnumOf` certifies it enumerates exactly the
union), and `derive` then emits the trailing non-schema columns in that
order — not in their original relative order `["zz", "aa"]` as the claim
requires. -/
theorem c1_counterexample :
    EnumOf ["aa", "zz"] (colNames exF1 ++ derivedNames exS1) ∧
    derive exS1 ["aa", "zz"] 1 none exF1 = some exG1 ∧
    colNames exG1 ≠ claimedOrderC1 exS1 (colNames exF1) (derivedNames exS1) := by
  decide

/-- C2 counterexample: `cast(strict=True, columns=[])` requests an empty
target subset, so by the claim every column passes through unchanged; but
the source computes `columns = columns or names` and an empty list is
falsy, so every column is targeted and `a` is cast to its default `u16`. -/
theorem c2_counterexample :
    castFrame exS2 true (some []) exF2 ≠ List.map (castSpecDecision exS2 true []) exF2 ∧
    castFrame exS2 true (some []) exF2 ≠ exF2 := by
  decide

/-- C3 counterexample: the only declared alias is the falsy empty string
(which names an existing column), so `any(fi.validation_alias ...)` is
False and `unalias` returns the input unchanged: the canonical column `x`
keeps its null instead of having it filled from the resolved alias
expression `pl.col("")` as the claim requires. -/
theorem c3_counterexample :
    toExpr exF3 (AliasSpec.direct "") = some (some (PExpr.col "")) ∧
    findCol exF3 "x" = some (intCol "x" [Val.null]) ∧
    evalExpr exF3 (frameHeight exF3) (PExpr.col "") = some [Val.vint 5] ∧
    unalias exS3 exF3 = some exF3 ∧
    findCol exF3 "x" ≠ some (intCol "x" (fillVals [Val.null] [Val.vint 5])) := by
  decide

/-- C5 counterexample: field `x` has no alias and no column, and the other
field's alias keeps the early return from firing; `unalias` then selects
`pl.col("x")`, a missing column — an error (`none`), not an output with
`x` omitted as the claim requires. -/
theorem c5_counterexample :
    plainField "x" ∈ exS5 ∧ (plainField "x").vAlias = none ∧
    "x" ∉ colNames exF5 ∧ unalias exS5 exF5 = none := by
  decide

/-- C7 counterexample: `x` is derived by the top-level loop, then derived
again while resolving the `Expression` root of `a`: the per-invocation
`derived_columns` record is `["x", "x", "a"]`, so `x` is derived twice in
one invocation, contradicting the claim. -/
theorem c7_counterexample :
    deriveTrace exS7 5 none exF7 = some ["x", "x", "a"] ∧
    ¬ (["x", "x", "a"] : List String).Nodup := by
  decide

/-- C8 counterexample: on the acyclic schema `exS8` (`a` derived from
column `b`, `b` from column `foo`) the first `derive` reads the stale input
value of `b` when defining `a`; a second `derive` reads the re-derived `b`,
so applying `derive` twice differs from applying it once.  Both set
enumerations are certified by `EnumOf` and are the same list, as a
process-stable hash order would give. -/
theorem c8_counterexample :
    EnumOf uset8 (colNames exF8 ++ derivedNames exS8) ∧
    EnumOf uset8 (colNames exG8a ++ derivedNames exS8) ∧
    derive exS8 uset8 5 none exF8 = some exG8a ∧
    derive exS8 uset8 5 none exG8a = some exG8b ∧
    exG8b ≠ exG8a := by
  decide

/-- The head field found under a name has a `derived_from` declaration (the
schema-level test `_derive_column` performs). -/
def isDerivable (s : Schema) (c : String) : Bool :=
  match schemaFind s c with
  | none => false
  | some fi => fi.derivedFrom.isSome

/-- The source columns the derivation of `c` reads. -/
def sourcesOfC (s : Schema) (c : String) : List String :=
  match schemaFind s c with
  | none => []
  | some fi => fieldSources fi

/-- The column one `_derive_column` step defines for a derivable `c`,
computed against a fixed frame (well-defined when no source is itself
derived, which is what `BaseSources` guarantees). -/
def stepCol (s : Schema) (f : Frame) (c : String) : Option Column :=
  match schemaFind s c with
  | none => none
  | some fi =>
    match fi.derivedFrom with
    | none => none
    | some (DerivedFrom.colRef src) =>
      (findCol f src).map
        (fun cv => ⟨c, fi.defaultDtype, cv.values.map (castVal fi.defaultDtype)⟩)
    | some (DerivedFrom.expr e) =>
      (evalExpr f (frameHeight f) e).map
        (fun vs => ⟨c, fi.defaultDtype, vs.map (castVal fi.defaultDtype)⟩)

/-- The least stack bound that does NOT suffice for one `_derive_column`
step on `c` (under `BaseSources` the step succeeds with `fuel` exactly when
`fuelNeeded s c < fuel` and the sources are present). -/
def fuelNeeded (s : Schema) (c : String) : Nat :=
  match schemaFind s c with
  | none => 0
  | some fi =>
    match fi.derivedFrom with
    | none => 0
    | some (DerivedFrom.colRef _) => 0
    | some (DerivedFrom.expr e) => e.rootNames.length + 1

theorem findCol_cons_self {c : Column} {cs : Frame} {n : String} (h : c.name = n) :
    findCol (c :: cs) n = some c := by
  rw [findCol, List.find?_cons_of_pos]
  simpa using h

theorem findCol_cons_ne {c : Column} {cs : Frame} {n : String} (h : c.name ≠ n) :
    findCol (c :: cs) n = findCol cs n := by
  rw [findCol, List.find?_cons_of_neg, findCol]
  simpa using h

theorem schemaFind_eq_none_iff (s : Schema) (n : String) :
    schemaFind s n = none ↔ n ∉ schemaProps s := by
  rw [schemaFind, List.find?_eq_none, schemaProps]
  constructor
  · intro h hmem
    rcases List.mem_map.mp hmem with ⟨fi, hfi, hname⟩
    exact h fi hfi (by simpa using hname)
  · intro h fi hfi hbeq
    exact h (List.mem_map.mpr ⟨fi, hfi, by simpa using hbeq⟩)

theorem schemaFind_mem {s : Schema} {n : String} {fi : FieldInfo}
    (h : schemaFind s n = some fi) : fi ∈ s ∧ fi.name = n := by
  refine ⟨List.mem_of_find?_eq_some h, ?_⟩
  have := List.find?_some h
  simpa using this

theorem findCol_eq_none_iff (f : Frame) (n : String) :
    findCol f n = none ↔ n ∉ colNames f := by
  rw [findCol, List.find?_eq_none, colNames]
  constructor
  · intro h hmem
    rcases List.mem_map.mp hmem with ⟨c, hc, hname⟩
    exact h c hc (by simpa using hname)
  · intro h c hc hbeq
    exact h (List.mem_map.mpr ⟨c, hc, by simpa using hbeq⟩)

theorem findCol_mem {f : Frame} {n : String} {c : Column}
    (h : findCol f n = some c) : c ∈ f ∧ c.name = n := by
  refine ⟨List.mem_of_find?_eq_some h, ?_⟩
  have := List.find?_some h
  simpa using this

theorem colNames_cons (c : Column) (cs : Frame) :
    colNames (c :: cs) = c.name :: colNames cs := rfl

theorem findCol_isSome_iff (f : Frame) (n : String) :
    (findCol f n).isSome ↔ n ∈ colNames f := by
  rcases h : findCol f n with _ | c
  · simpa using (findCol_eq_none_iff f n).mp h
  · simp only [Option.isSome_some, true_iff]
    rcases findCol_mem h with ⟨hc, hn⟩
    exact List.mem_map.mpr ⟨c, hc, hn⟩

theorem findCol_map_replace_self (f : Frame) (n : String) (x : Column) (hx : x.name = n) :
    findCol (f.map (fun c => if c.name = n then x else c)) n
      = if n ∈ colNames f then some x else none := by
  induction f with
  | nil => simp [findCol, colNames]
  | cons c cs ih =>
    by_cases h : c.name = n
    · rw [List.map_cons, if_pos h, findCol_cons_self hx,
        if_pos (by rw [colNames_cons]; exact List.mem_cons.mpr (Or.inl h.symm))]
    · rw [List.map_cons, if_neg h, findCol_cons_ne h, ih]
      by_cases hm : n ∈ colNames cs
      · rw [if_pos hm, if_pos (by rw [colNames_cons]; exact List.mem_cons.mpr (Or.inr hm))]
      · have hnot : n ∉ colNames (c :: cs) := by
          rw [colNames_cons]
          intro hx2
          rcases List.mem_cons.mp hx2 with e | e
          · exact h e.symm
          · exact hm e
        rw [if_neg hm, if_neg hnot]

theorem findCol_map_replace_other (f : Frame) (n n' : String) (x : Column)
    (h : n' ≠ n) (hx : x.name = n) :
    findCol (f.map (fun c => if c.name = n then x else c)) n' = findCol f n' := by
  induction f with
  | nil => rfl
  | cons c cs ih =>
    by_cases hcn : c.name = n
    · rw [List.map_cons, if_pos hcn, findCol_cons_ne (by rw [hx]; exact Ne.symm h),
        findCol_cons_ne (by rw [hcn]; exact Ne.symm h)]
      exact ih
    · rw [List.map_cons, if_neg hcn]
      by_cases hcn' : c.name = n'
      · rw [findCol_cons_self hcn', findCol_cons_self hcn']
      · rw [findCol_cons_ne hcn', findCol_cons_ne hcn']
        exact ih

theorem findCol_append_single_self (f : Frame) (x : Column) (n : String)
    (hn : n ∉ colNames f) (hx : x.name = n) :
    findCol (f ++ [x]) n = some x := by
  induction f with
  | nil => exact findCol_cons_self hx
  | cons c cs ih =>
    have hcn : c.name ≠ n :=
      fun e => hn (by rw [colNames_cons, e]; exact List.mem_cons_self _ _)
    rw [List.cons_append, findCol_cons_ne hcn]
    exact ih (fun hm => hn (by rw [colNames_cons]; exact List.mem_cons.mpr (Or.inr hm)))

theorem findCol_append_single_other (f : Frame) (x : Column) (n' : String)
    (h : x.name ≠ n') :
    findCol (f ++ [x]) n' = findCol f n' := by
  induction f with
  | nil => rw [List.nil_append, findCol_cons_ne h]
  | cons c cs ih =>
    by_cases hcn : c.name = n'
    · rw [List.cons_append, findCol_cons_self hcn, findCol_cons_self hcn]
    · rw [List.cons_append, findCol_cons_ne hcn, findCol_cons_ne hcn]
      exact ih

theorem findCol_withColumn_self (f : Frame) (n : String) (d : Dtype) (vals : List Val) :
    findCol (withColumn f n d vals) n = some ⟨n, d, vals⟩ := by
  unfold withColumn
  by_cases h : (colNames f).contains n
  · rw [if_pos h, findCol_map_replace_self f n ⟨n, d, vals⟩ rfl,
      if_pos (List.elem_iff.mp h)]
  · rw [if_neg h]
    exact findCol_append_single_self f _ n (fun hm => h (List.elem_iff.mpr hm)) rfl

theorem findCol_withColumn_other (f : Frame) (n n' : String) (d : Dtype)
    (vals : List Val) (h : n' ≠ n) :
    findCol (withColumn f n d vals) n' = findCol f n' := by
  unfold withColumn
  by_cases hc : (colNames f).contains n
  · rw [if_pos hc]
    exact findCol_map_replace_other f n n' ⟨n, d, vals⟩ h rfl
  · rw [if_neg hc]
    exact findCol_append_single_other f _ n' (Ne.symm h)

/-- C2 (amended): the cast decision is exactly as the claim states it —
explicit dtype override always wins; otherwise a non-strict cast leaves a
column whose current dtype is in the field's valid-dtypes set unchanged;
otherwise the column is cast to the field's default dtype; columns outside
the target subset or outside the schema pass through — EXCEPT that the
requested subset is first put through `effTargets`: the source's
`columns = columns or names` treats an explicitly empty subset like an
absent one, targeting every column. -/
theorem c2_amended_cast_policy (s : Schema) (strict : Bool)
    (columns : Option (List String)) (f : Frame) :
    castFrame s strict columns f
      = f.map (castSpecDecision s strict (effTargets columns (colNames f))) := by
  unfold castFrame
  apply List.map_congr_left
  intro c _
  rcases hf : schemaFind s c.name with _ | fi
  · have hp : ((schemaProps s).contains c.name) = false := by
      cases hb : (schemaProps s).contains c.name
      · rfl
      · exact absurd (List.elem_iff.mp hb) ((schemaFind_eq_none_iff s c.name).mp hf)
    simp [castSpecDecision, hf, hp]
  · have hpm : c.name ∈ schemaProps s := by
      rcases schemaFind_mem hf with ⟨hmem, hname⟩
      exact List.mem_map.mpr ⟨fi, hmem, hname⟩
    have hp : ((schemaProps s).contains c.name) = true := List.elem_iff.mpr hpm
    by_cases htm : c.name ∈ effTargets columns (colNames f)
    · have ht : (effTargets columns (colNames f)).contains c.name = true :=
        List.elem_iff.mpr htm
      simp [castSpecDecision, hf, hp, ht, hpm, htm]
    · have ht : (effTargets columns (colNames f)).contains c.name = false := by
        cases hb : (effTargets columns (colNames f)).contains c.name
        · rfl
        · exact absurd (List.elem_iff.mp hb) htm
      simp [castSpecDecision, hf, hp, ht, htm]

/-- C2 witness: a strict cast with an explicit nonempty target subset
containing `a` casts `a` to its default dtype, per the amended policy. -/
theorem c2_witness :
    castFrame exS2 true (some ["a"]) exF2
      = List.map (castSpecDecision exS2 true (effTargets (some ["a"]) (colNames exF2))) exF2 ∧
    castFrame exS2 true (some ["a"]) exF2 = [⟨"a", Dtype.u16, [Val.vint 1]⟩] :=
  ⟨c2_amended_cast_policy exS2 true (some ["a"]) exF2, by decide⟩

theorem fillVals_replicate_null (h : Nat) (part : List Val) :
    fillVals (List.replicate h Val.null) part = part.take h := by
  induction h generalizing part with
  | zero => rfl
  | succ n ih =>
    cases part with
    | nil => rfl
    | cons p ps =>
      show (if Val.null = Val.null then p else Val.null)
          :: fillVals (List.replicate n Val.null) ps = p :: ps.take n
      rw [if_pos rfl, ih ps]

theorem fillVals_get?_keep (acc part : List Val) (hlen : acc.length = part.length)
    (i : Nat) (v : Val) (hv : acc.get? i = some v) (hnn : v ≠ Val.null) :
    (fillVals acc part).get? i = some v := by
  induction acc generalizing part i with
  | nil => simp at hv
  | cons a as ih =>
    cases part with
    | nil => simp at hlen
    | cons p ps =>
      cases i with
      | zero =>
        have hv' : a = v := by
          have h2 : some a = some v := hv
          injection h2
        subst hv'
        show some (if a = Val.null then p else a) = some a
        rw [if_neg hnn]
      | succ j => exact ih ps (by simpa using hlen) j hv
  
theorem fillVals_get?_fill (acc part : List Val) (i : Nat)
    (hv : acc.get? i = some Val.null) :
    (fillVals acc part).get? i = part.get? i := by
  induction acc generalizing part i with
  | nil => simp at hv
  | cons a as ih =>
    cases part with
    | nil => cases i <;> simp [fillVals]
    | cons p ps =>
      cases i with
      | zero =>
        have hv' : a = Val.null := by
          have h2 : some a = some Val.null := hv
          injection h2
        show some (if a = Val.null then p else a) = some p
        rw [if_pos hv']
      | succ j => exact ih ps j hv

/-- C4: `Choices` alias resolution is first-match-wins per row.  The
concrete scenario of the claim: candidates `A = [null, 2]`, `B = [10, 20]`
resolve to `[10, 2]`.  Generally, the accumulator update the source builds
(`local_expr.fill_null(value=part)`) evaluates to the row-wise `fillVals`;
folding it from an all-null accumulator reproduces the first candidate; a
row already non-null in the accumulator is never overwritten; and a row
still null takes the candidate's value at that row. -/
theorem c4_choices_first_match :
    unalias exS4 exF4 = some [⟨"x", Dtype.i64, [Val.vint 10, Val.vint 2]⟩] ∧
    (∀ (f : Frame) (h : Nat) (a b : PExpr),
      evalExpr f h (PExpr.fillNullE a b)
        = (evalExpr f h a).bind fun va => (evalExpr f h b).map fun vb => fillVals va vb) ∧
    (∀ (h : Nat) (part : List Val),
      fillVals (List.replicate h Val.null) part = part.take h) ∧
    (∀ (acc part : List Val), acc.length = part.length →
      ∀ (i : Nat) (v : Val), acc.get? i = some v → v ≠ Val.null →
        (fillVals acc part).get? i = some v) ∧
    (∀ (acc part : List Val) (i : Nat),
      acc.get? i = some Val.null → (fillVals acc part).get? i = part.get? i) := by
  exact ⟨by decide, fun f h a b => rfl, fillVals_replicate_null,
    fillVals_get?_keep, fillVals_get?_fill⟩

/-- C4 witness: the no-overwrite part of `c4_choices_first_match` applied
at a concrete accumulator and candidate. -/
theorem c4_witness :
    (fillVals [Val.vint 1, Val.null] [Val.vint 7, Val.vint 9]).get? 0
      = some (Val.vint 1) :=
  c4_choices_first_match.2.2.2.1 [Val.vint 1, Val.null] [Val.vint 7, Val.vint 9]
    (by decide) 0 (Val.vint 1) (by decide) (by decide)

/-- C9: `get` raises `RowDoesNotExist` exactly when the (optionally
filtered) frame has zero rows, with the invoking class name and
"yielded 0 rows" in the message; raises `MultipleRowsReturned` exactly when
it has more than one row, with the row count in the message; and returns a
record built from the single row exactly when it has one row — typed by the
bound model when one is set, dynamically inferred otherwise. -/
theorem c9_get_cardinality (clsName : String) (hasModel : Bool)
    (mask : Option (List Bool)) (f : Frame) :
    (∀ m, getRow clsName hasModel mask f = GetResult.rowDoesNotExist m ↔
      frameHeight (mask.elim f (filterMask f)) = 0 ∧
        m = clsName ++ ".get() yielded 0 rows.") ∧
    (∀ m, getRow clsName hasModel mask f = GetResult.multipleRowsReturned m ↔
      1 < frameHeight (mask.elim f (filterMask f)) ∧
        m = clsName ++ ".get() yielded "
              ++ toString (frameHeight (mask.elim f (filterMask f))) ++ " rows.") ∧
    (∀ r, getRow clsName hasModel mask f = GetResult.ok r ↔
      frameHeight (mask.elim f (filterMask f)) = 1 ∧
        r = (if hasModel then RowRecord.typed (rowZero (mask.elim f (filterMask f)))
             else RowRecord.untyped (rowZero (mask.elim f (filterMask f))))) := by
  have hrow : getRow clsName hasModel mask f
      = getRow clsName hasModel none (mask.elim f (filterMask f)) := by
    cases mask <;> rfl
  rw [hrow]
  generalize mask.elim f (filterMask f) = row
  simp only [getRow]
  generalize (if hasModel then RowRecord.typed (rowZero row)
      else RowRecord.untyped (rowZero row)) = rec
  split_ifs with h0 h1
  · refine ⟨fun m => ?_, fun m => ?_, fun r => ?_⟩
    · constructor
      · intro hx
        injection hx with hx
        exact ⟨h0, hx.symm⟩
      · rintro ⟨_, rfl⟩
        rfl
    · constructor
      · intro hx
        exact absurd hx (by simp)
      · rintro ⟨e, _⟩
        omega
    · constructor
      · intro hx
        exact absurd hx (by simp)
      · rintro ⟨e, _⟩
        omega
  · refine ⟨fun m => ?_, fun m => ?_, fun r => ?_⟩
    · constructor
      · intro hx
        exact absurd hx (by simp)
      · rintro ⟨e, _⟩
        omega
    · constructor
      · intro hx
        injection hx with hx
        exact ⟨h1, hx.symm⟩
      · rintro ⟨_, rfl⟩
        rfl
    · constructor
      · intro hx
        exact absurd hx (by simp)
      · rintro ⟨e, _⟩
        omega
  · have he : frameHeight row = 1 := by omega
    refine ⟨fun m => ?_, fun m => ?_, fun r => ?_⟩
    · constructor
      · intro hx
        exact absurd hx (by simp)
      · rintro ⟨e, _⟩
        omega
    · constructor
      · intro hx
        exact absurd hx (by simp)
      · rintro ⟨e, _⟩
        omega
    · constructor
      · intro hx
        injection hx with hx
        exact ⟨he, hx.symm⟩
      · rintro ⟨_, rfl⟩
        rfl

/-- C9 witness: the single-row case at a concrete two-row frame filtered to
one row, without a bound model. -/
theorem c9_witness :
    getRow "DataFrame" false (some [true, false]) [intCol "p" [Val.vint 1, Val.vint 2]]
      = GetResult.ok (RowRecord.untyped [("p", Val.vint 1)]) :=
  ((c9_get_cardinality "DataFrame" false (some [true, false])
      [intCol "p" [Val.vint 1, Val.vint 2]]).2.2
    (RowRecord.untyped [("p", Val.vint 1)])).mpr (by decide)

theorem fillStep_findCol_other (f acc : Frame) (fi : FieldInfo) (n : String)
    (h : fi.name ≠ n) : findCol (fillStep f acc fi) n = findCol acc n := by
  unfold fillStep
  split
  · rfl
  · split
    · split
      · exact findCol_withColumn_other _ _ _ _ _ (Ne.symm h)
      · rfl
    · exact findCol_withColumn_other _ _ _ _ _ (Ne.symm h)

theorem foldl_fillStep_other (f : Frame) (l : List FieldInfo) (n : String)
    (acc : Frame) (h : n ∉ l.map (·.name)) :
    findCol (List.foldl (fillStep f) acc l) n = findCol acc n := by
  induction l generalizing acc with
  | nil => rfl
  | cons fi rest ih =>
    rw [List.foldl_cons,
      ih _ (fun hm => h (by rw [List.map_cons]; exact List.mem_cons.mpr (Or.inr hm)))]
    exact fillStep_findCol_other f acc fi n
      (fun e => h (by rw [List.map_cons]; exact List.mem_cons.mpr (Or.inl e.symm)))

theorem fillStep_findCol_self (f acc : Frame) (fi : FieldInfo) (dv : Val)
    (hdv : fi.defaultVal = some dv) :
    findCol (fillStep f acc fi) fi.name =
      match findCol f fi.name with
      | some c => some ⟨fi.name, c.dtype, c.values.map (fillCell fi.defaultDtype dv)⟩
      | none => some ⟨fi.name, fi.defaultDtype,
          List.replicate (frameHeight f) (castVal fi.defaultDtype dv)⟩ := by
  simp only [fillStep, hdv]
  rcases hfind : findCol f fi.name with _ | c
  · have hnc : ¬ ((colNames f).contains fi.name = true) := fun hb =>
      absurd (List.elem_iff.mp hb) ((findCol_eq_none_iff f fi.name).mp hfind)
    rw [if_neg hnc]
    exact findCol_withColumn_self _ _ _ _
  · have hc2 : ((colNames f).contains fi.name) = true := by
      rcases findCol_mem hfind with ⟨hm, hn⟩
      exact List.elem_iff.mpr (List.mem_map.mpr ⟨c, hm, hn⟩)
    rw [if_pos hc2]
    exact findCol_withColumn_self _ _ _ _

theorem fill_fold_find (f : Frame) (l : List FieldInfo) (acc : Frame)
    (fi : FieldInfo) (dv : Val) (hnodup : (l.map (·.name)).Nodup)
    (hmem : fi ∈ l) (hdv : fi.defaultVal = some dv) :
    findCol (List.foldl (fillStep f) acc l) fi.name =
      match findCol f fi.name with
      | some c => some ⟨fi.name, c.dtype, c.values.map (fillCell fi.defaultDtype dv)⟩
      | none => some ⟨fi.name, fi.defaultDtype,
          List.replicate (frameHeight f) (castVal fi.defaultDtype dv)⟩ := by
  induction l generalizing acc with
  | nil => cases hmem
  | cons fj rest ih =>
    have hnodup' : fj.name ∉ rest.map (·.name) ∧ (rest.map (·.name)).Nodup := by
      rw [List.map_cons] at hnodup
      exact List.nodup_cons.mp hnodup
    rcases List.mem_cons.mp hmem with rfl | hmem'
    · rw [List.foldl_cons, foldl_fillStep_other f rest fi.name _ hnodup'.1]
      exact fillStep_findCol_self f acc fi dv hdv
    · rw [List.foldl_cons]
      exact ih _ hnodup'.2 hmem'

/-- C10: for every schema field with a declared default,
`fill_null(strategy="defaults")` rewrites an existing column by replacing
exactly its null cells with the default cast to the field's declared dtype
(`fillCell`), and synthesizes an absent column as the typed default
repeated for every row of the table. -/
theorem c10_fill_null_defaults (s : Schema) (f : Frame) (fi : FieldInfo)
    (dv : Val) (hnodup : (schemaProps s).Nodup) (hmem : fi ∈ s)
    (hdv : fi.defaultVal = some dv) :
    (∀ c, findCol f fi.name = some c →
      findCol (fillNullDefaults s f) fi.name
        = some ⟨fi.name, c.dtype, c.values.map (fillCell fi.defaultDtype dv)⟩) ∧
    (findCol f fi.name = none →
      findCol (fillNullDefaults s f) fi.name
        = some ⟨fi.name, fi.defaultDtype,
            List.replicate (frameHeight f) (castVal fi.defaultDtype dv)⟩) ∧
    (∀ (vs : List Val) (i : Nat), vs.get? i = some Val.null →
      (vs.map (fillCell fi.defaultDtype dv)).get? i
        = some (castVal fi.defaultDtype dv)) ∧
    (∀ (vs : List Val) (i : Nat) (v : Val), vs.get? i = some v → v ≠ Val.null →
      (vs.map (fillCell fi.defaultDtype dv)).get? i = some v) := by
  have hmain := fill_fold_find f s f fi dv hnodup hmem hdv
  refine ⟨?_, ?_, ?_, ?_⟩
  · intro c hc
    rw [hc] at hmain
    exact hmain
  · intro hc
    rw [hc] at hmain
    exact hmain
  · intro vs i hvi
    rw [List.get?_map, hvi]
    rfl
  · intro vs i v hvi hnn
    rw [List.get?_map, hvi]
    show some (fillCell fi.defaultDtype dv v) = some v
    cases v with
    | null => exact absurd rfl hnn
    | vint n => rfl
    | vstr t => rfl
    | vbool b => rfl
    | vlist xs => rfl

/-- C10 witness: `c10_fill_null_defaults` applied to the concrete schema
`wS10`, whose `price` column has a null filled by the default `19` and
whose absent `extra` column is synthesized as `7` on every row. -/
theorem c10_witness :
    findCol (fillNullDefaults wS10 wF10) "price"
        = some ⟨"price", Dtype.i64, [Val.vint 10, Val.vint 19]⟩ ∧
    findCol (fillNullDefaults wS10 wF10) "extra"
        = some ⟨"extra", Dtype.i64, [Val.vint 7, Val.vint 7]⟩ := by
  constructor
  · exact (c10_fill_null_defaults wS10 wF10
      ⟨"price", false, Dtype.i64, [Dtype.i64], Dtype.i64, none, none, some (Val.vint 19)⟩
      (Val.vint 19) (by decide) (by decide) rfl).1
      (intCol "price" [Val.vint 10, Val.null]) rfl
  · exact (c10_fill_null_defaults wS10 wF10
      ⟨"extra", false, Dtype.i64, [Dtype.i64], Dtype.i64, none, none, some (Val.vint 7)⟩
      (Val.vint 7) (by decide) (by decide) rfl).2.1 rfl

theorem frameHeight_of_wf (f : Frame) (h : Nat) (hwf : WFFrame f h)
    (hne : f ≠ []) : frameHeight f = h := by
  cases f with
  | nil => exact absurd rfl hne
  | cons c cs => exact hwf c (List.mem_cons_self _ _)

theorem evalExpr_length (f : Frame) (h : Nat) (e : PExpr) (vs : List Val)
    (hwf : WFFrame f h) (hv : evalExpr f h e = some vs) : vs.length = h := by
  induction e generalizing vs with
  | col n =>
    simp only [evalExpr] at hv
    rcases hfc : findCol f n with _ | c
    · rw [hfc] at hv; simp at hv
    · rw [hfc] at hv
      have h2 : some c.values = some vs := hv
      injection h2 with h2
      rw [← h2]
      exact hwf c (findCol_mem hfc).1
  | litInt n =>
    have h2 : some (List.replicate h (Val.vint n)) = some vs := hv
    injection h2 with h2
    rw [← h2, List.length_replicate]
  | add a b iha ihb =>
    simp only [evalExpr] at hv
    rcases hea : evalExpr f h a with _ | va
    · rw [hea] at hv; simp at hv
    · rw [hea] at hv
      rcases heb : evalExpr f h b with _ | vb
      · rw [heb] at hv; simp at hv
      · rw [heb] at hv
        have h2 : some (va.zipWith addVal vb) = some vs := hv
        injection h2 with h2
        rw [← h2, List.length_zipWith, iha va hea, ihb vb heb]
        exact Nat.min_self h
  | mul a b iha ihb =>
    simp only [evalExpr] at hv
    rcases hea : evalExpr f h a with _ | va
    · rw [hea] at hv; simp at hv
    · rw [hea] at hv
      rcases heb : evalExpr f h b with _ | vb
      · rw [heb] at hv; simp at hv
      · rw [heb] at hv
        have h2 : some (va.zipWith mulVal vb) = some vs := hv
        injection h2 with h2
        rw [← h2, List.length_zipWith, iha va hea, ihb vb heb]
        exact Nat.min_self h
  | fillNullE a b iha ihb =>
    simp only [evalExpr] at hv
    rcases hea : evalExpr f h a with _ | va
    · rw [hea] at hv; simp at hv
    · rw [hea] at hv
      rcases heb : evalExpr f h b with _ | vb
      · rw [heb] at hv; simp at hv
      · rw [heb] at hv
        have h2 : some (fillVals va vb) = some vs := hv
        injection h2 with h2
        rw [← h2]
        show (va.zipWith _ vb).length = h
        rw [List.length_zipWith, iha va hea, ihb vb heb]
        exact Nat.min_self h
  | listGet s i =>
    simp only [evalExpr] at hv
    rcases hfc : findCol f s with _ | c
    · rw [hfc] at hv; simp at hv
    · rw [hfc] at hv
      have h2 : some (c.values.map (listGetVal i)) = some vs := hv
      injection h2 with h2
      rw [← h2, List.length_map]
      exact hwf c (findCol_mem hfc).1

/-- Structural inversion of one `fieldExprs` step: the tail schema yields a
tail expression list, and the head field contributes at most one entry,
named after itself. -/
theorem fieldExprs_mem_of_tail (f : Frame) (fj : FieldInfo) (rest : List FieldInfo)
    (es : List (String × PExpr)) (hes : fieldExprs f (fj :: rest) = some es) :
    ∃ tl, fieldExprs f rest = some tl ∧
      (es = tl ∨ ∃ q : String × PExpr, q.1 = fj.name ∧ es = q :: tl) := by
  rcases hvj : fj.vAlias with _ | vaj
  · simp only [fieldExprs, hvj] at hes
    rw [Option.map_eq_some'] at hes
    rcases hes with ⟨tl, htl, hs⟩
    exact ⟨tl, htl, Or.inr ⟨(fj.name, PExpr.col fj.name), rfl, hs.symm⟩⟩
  · simp only [fieldExprs, hvj] at hes
    rcases hte : toExpr f vaj with _ | oe
    · rw [hte] at hes
      simp at hes
    · rw [hte] at hes
      simp only [Option.some_bind] at hes
      rw [Option.map_eq_some'] at hes
      rcases hes with ⟨tl, htl, hs⟩
      by_cases hcn : ((colNames f).contains fj.name) = true
      · rw [if_pos hcn] at hs
        rcases oe with _ | e
        · exact ⟨tl, htl, Or.inr ⟨(fj.name, PExpr.col fj.name), rfl, hs.symm⟩⟩
        · exact ⟨tl, htl,
            Or.inr ⟨(fj.name, PExpr.fillNullE (PExpr.col fj.name) e), rfl, hs.symm⟩⟩
      · rw [if_neg hcn] at hs
        rcases oe with _ | e
        · exact ⟨tl, htl, Or.inl hs.symm⟩
        · exact ⟨tl, htl, Or.inr ⟨(fj.name, e), rfl, hs.symm⟩⟩

theorem fieldExprs_names_sublist (f : Frame) (l : List FieldInfo)
    (es : List (String × PExpr)) (hes : fieldExprs f l = some es) :
    List.Sublist (es.map (·.1)) (l.map (·.name)) := by
  induction l generalizing es with
  | nil =>
    have h2 : some ([] : List (String × PExpr)) = some es := hes
    injection h2 with h2
    rw [← h2]
    exact List.Sublist.refl _
  | cons fj rest ih =>
    rcases fieldExprs_mem_of_tail f fj rest es hes with ⟨tl, htl, hcase⟩
    rcases hcase with rfl | ⟨q, hq1, rfl⟩
    · exact (ih _ htl).cons _
    · rw [List.map_cons, List.map_cons, hq1]
      exact (ih _ htl).cons₂ _

theorem fieldExprs_entry_plain (f : Frame) (l : List FieldInfo)
    (es : List (String × PExpr)) (fi : FieldInfo)
    (hes : fieldExprs f l = some es) (hmem : fi ∈ l) (hva : fi.vAlias = none) :
    (fi.name, PExpr.col fi.name) ∈ es := by
  induction l generalizing es with
  | nil => cases hmem
  | cons fj rest ih =>
    rcases List.mem_cons.mp hmem with rfl | hmem'
    · simp only [fieldExprs, hva] at hes
      rw [Option.map_eq_some'] at hes
      rcases hes with ⟨tl, htl, hs⟩
      rw [← hs]
      exact List.mem_cons_self _ _
    · rcases fieldExprs_mem_of_tail f fj rest es hes with ⟨tl, htl, hcase⟩
      rcases hcase with rfl | ⟨q, hq1, rfl⟩
      · exact ih _ htl hmem'
      · exact List.mem_cons.mpr (Or.inr (ih _ htl hmem'))

theorem fieldExprs_entry_fill (f : Frame) (l : List FieldInfo)
    (es : List (String × PExpr)) (fi : FieldInfo) (va : AliasSpec) (e : PExpr)
    (hes : fieldExprs f l = some es) (hmem : fi ∈ l) (hva : fi.vAlias = some va)
    (hres : toExpr f va = some (some e)) (hpresent : fi.name ∈ colNames f) :
    (fi.name, PExpr.fillNullE (PExpr.col fi.name) e) ∈ es := by
  induction l generalizing es with
  | nil => cases hmem
  | cons fj rest ih =>
    rcases List.mem_cons.mp hmem with rfl | hmem'
    · simp only [fieldExprs, hva] at hes
      rw [hres] at hes
      simp only [Option.some_bind] at hes
      rw [Option.map_eq_some'] at hes
      rcases hes with ⟨tl, htl, hs⟩
      rw [if_pos (List.elem_iff.mpr hpresent)] at hs
      rw [← hs]
      exact List.mem_cons_self _ _
    · rcases fieldExprs_mem_of_tail f fj rest es hes with ⟨tl, htl, hcase⟩
      rcases hcase with rfl | ⟨q, hq1, rfl⟩
      · exact ih _ htl hmem'
      · exact List.mem_cons.mpr (Or.inr (ih _ htl hmem'))

theorem fieldExprs_omits (f : Frame) (l : List FieldInfo)
    (es : List (String × PExpr)) (fi : FieldInfo) (va : AliasSpec)
    (hes : fieldExprs f l = some es) (hnodup : (l.map (·.name)).Nodup)
    (hmem : fi ∈ l) (hva : fi.vAlias = some va) (hres : toExpr f va = some none)
    (habsent : fi.name ∉ colNames f) :
    fi.name ∉ es.map (·.1) := by
  induction l generalizing es with
  | nil => cases hmem
  | cons fj rest ih =>
    have hnd : fj.name ∉ rest.map (·.name) ∧ (rest.map (·.name)).Nodup := by
      rw [List.map_cons] at hnodup
      exact List.nodup_cons.mp hnodup
    rcases List.mem_cons.mp hmem with rfl | hmem'
    · simp only [fieldExprs, hva] at hes
      rw [hres] at hes
      simp only [Option.some_bind] at hes
      rw [Option.map_eq_some'] at hes
      rcases hes with ⟨tl, htl, hs⟩
      have hcn : ¬ ((colNames f).contains fi.name = true) :=
        fun hb => habsent (List.elem_iff.mp hb)
      rw [if_neg hcn] at hs
      have hs' : tl = es := hs
      rw [← hs']
      intro hmm
      exact hnd.1 ((fieldExprs_names_sublist f rest tl htl).subset hmm)
    · rcases fieldExprs_mem_of_tail f fj rest es hes with ⟨tl, htl, hcase⟩
      have hne : fj.name ≠ fi.name := by
        intro e
        exact hnd.1 (e ▸ List.mem_map.mpr ⟨fi, hmem', rfl⟩)
      rcases hcase with rfl | ⟨q, hq1, rfl⟩
      · exact ih _ htl hnd.2 hmem'
      · intro hmm
        rw [List.map_cons] at hmm
        rcases List.mem_cons.mp hmm with e | e
        · exact hne ((e.trans hq1).symm)
        · exact ih _ htl hnd.2 hmem' e

theorem selectExprs_names (f : Frame) (h : Nat) (es : List (String × PExpr))
    (g : Frame) (hg : selectExprs f h es = some g) :
    colNames g = es.map (·.1) := by
  induction es generalizing g with
  | nil =>
    have h2 : some ([] : Frame) = some g := hg
    injection h2 with h2
    rw [← h2]
    rfl
  | cons p rest ih =>
    rcases p with ⟨n, e⟩
    simp only [selectExprs] at hg
    rcases hev : evalExpr f h e with _ | vs
    · rw [hev] at hg; simp at hg
    · rw [hev] at hg
      simp only [Option.some_bind] at hg
      rw [Option.map_eq_some'] at hg
      rcases hg with ⟨g', hg', hs⟩
      rw [← hs, colNames_cons, ih g' hg']
      rfl

theorem selectExprs_findCol (f : Frame) (h : Nat) (es : List (String × PExpr))
    (g : Frame) (hg : selectExprs f h es = some g)
    (hnodup : (es.map (·.1)).Nodup) (n : String) (e : PExpr)
    (hmem : (n, e) ∈ es) :
    ∃ vs, evalExpr f h e = some vs ∧ findCol g n = some ⟨n, inferDtype f e, vs⟩ := by
  induction es generalizing g with
  | nil => cases hmem
  | cons p rest ih =>
    rcases p with ⟨n', e'⟩
    simp only [selectExprs] at hg
    rcases hev : evalExpr f h e' with _ | vs'
    · rw [hev] at hg; simp at hg
    · rw [hev] at hg
      simp only [Option.some_bind] at hg
      rw [Option.map_eq_some'] at hg
      rcases hg with ⟨g', hg', hs⟩
      have hnd : n' ∉ rest.map (·.1) ∧ (rest.map (·.1)).Nodup := by
        rw [List.map_cons] at hnodup
        exact List.nodup_cons.mp hnodup
      rcases List.mem_cons.mp hmem with heq | hmem'
      · have h1 : n = n' := congrArg Prod.fst heq
        have h2 : e = e' := congrArg Prod.snd heq
        subst h1
        subst h2
        refine ⟨vs', hev, ?_⟩
        rw [← hs]
        exact findCol_cons_self rfl
      · have hne : n ≠ n' := by
          intro eq
          exact hnd.1 (eq ▸ List.mem_map.mpr ⟨(n, e), hmem', rfl⟩)
        rcases ih g' hg' hnd.2 hmem' with ⟨vs, hvs, hfind⟩
        refine ⟨vs, hvs, ?_⟩
        rw [← hs, findCol_cons_ne hne.symm]
        exact hfind

theorem selectExprs_none_of_fail (f : Frame) (h : Nat)
    (es : List (String × PExpr)) (n : String) (e : PExpr)
    (hmem : (n, e) ∈ es) (hfail : evalExpr f h e = none) :
    selectExprs f h es = none := by
  induction es with
  | nil => cases hmem
  | cons p rest ih =>
    rcases p with ⟨n', e'⟩
    rcases List.mem_cons.mp hmem with heq | hmem'
    · have h2 : e = e' := congrArg Prod.snd heq
      simp only [selectExprs]
      rw [← h2, hfail]
      rfl
    · simp only [selectExprs, ih hmem', Option.map_none']
      rcases hev : evalExpr f h e' with _ | vs' <;> rfl

/-- C3 (amended): whenever at least one schema field carries a truthy alias
(so the `any(fi.validation_alias ...)` early return does not fire), a field
whose canonical column exists and whose alias resolves to an expression
gets exactly `pl.col(name).fill_null(value=expr)`: the output column keeps
every non-null canonical value and fills only the null rows from the
resolved alias expression.  (When every declared alias is falsy — e.g. the
empty string — `unalias` returns its input unchanged and no filling
happens, the correction forced by `c3_counterexample`.) -/
theorem c3_amended_canonical_precedence (s : Schema) (f g : Frame) (h : Nat)
    (fi : FieldInfo) (va : AliasSpec) (e : PExpr) (cv : Column)
    (htruthy : s.any fieldTruthy = true)
    (hnodup : (schemaProps s).Nodup)
    (hwf : WFFrame f h)
    (hmem : fi ∈ s) (hva : fi.vAlias = some va)
    (hres : toExpr f va = some (some e))
    (hcv : findCol f fi.name = some cv)
    (hg : unalias s f = some g) :
    ∃ ev, evalExpr f h e = some ev ∧ ev.length = h ∧ cv.values.length = h ∧
      findCol g fi.name
        = some ⟨fi.name,
            inferDtype f (PExpr.fillNullE (PExpr.col fi.name) e),
            fillVals cv.values ev⟩ ∧
      (∀ i v, cv.values.get? i = some v → v ≠ Val.null →
        (fillVals cv.values ev).get? i = some v) ∧
      (∀ i, cv.values.get? i = some Val.null →
        (fillVals cv.values ev).get? i = ev.get? i) := by
  simp only [unalias] at hg
  rw [if_pos htruthy] at hg
  rcases hes : fieldExprs f s with _ | es
  · rw [hes] at hg; simp at hg
  · rw [hes] at hg
    simp only [Option.some_bind] at hg
    have hH : frameHeight f = h := by
      refine frameHeight_of_wf f h hwf ?_
      intro hnil
      rw [hnil] at hcv
      cases hcv
    rw [hH] at hg
    have hpresent : fi.name ∈ colNames f := by
      rcases findCol_mem hcv with ⟨hc, hn⟩
      exact List.mem_map.mpr ⟨cv, hc, hn⟩
    have hentry := fieldExprs_entry_fill f s es fi va e hes hmem hva hres hpresent
    have hesnodup : (es.map (·.1)).Nodup :=
      List.Nodup.sublist (fieldExprs_names_sublist f s es hes) hnodup
    rcases selectExprs_findCol f h es g hg hesnodup fi.name
        (PExpr.fillNullE (PExpr.col fi.name) e) hentry with ⟨vs, hvs, hfind⟩
    have hcvlen : cv.values.length = h := hwf cv (findCol_mem hcv).1
    simp only [evalExpr, hcv, Option.map_some', Option.some_bind] at hvs
    rcases hev : evalExpr f h e with _ | ev
    · rw [hev] at hvs; simp at hvs
    · rw [hev] at hvs
      simp only [Option.map_some'] at hvs
      injection hvs with hvs
      have hevlen : ev.length = h := evalExpr_length f h e ev hwf hev
      refine ⟨ev, rfl, hevlen, hcvlen, ?_, ?_, ?_⟩
      · rw [hfind, ← hvs]
      · intro i v hvi hnn
        exact fillVals_get?_keep cv.values ev (by rw [hcvlen, hevlen]) i v hvi hnn
      · intro i hvi
        exact fillVals_get?_fill cv.values ev i hvi

/-- C3 witness: `c3_amended_canonical_precedence` at the concrete schema
`wS3` (field `x` aliased to `ax`), where the canonical null at row 0 is
filled with `7` while the non-null `2` at row 1 is kept. -/
theorem c3_witness :
    ∃ ev, evalExpr wF3 2 (PExpr.col "ax") = some ev ∧ ev.length = 2 ∧
      (intCol "x" [Val.null, Val.vint 2]).values.length = 2 ∧
      findCol [(⟨"x", Dtype.i64, [Val.vint 7, Val.vint 2]⟩ : Column)] "x"
        = some ⟨"x",
            inferDtype wF3 (PExpr.fillNullE (PExpr.col "x") (PExpr.col "ax")),
            fillVals (intCol "x" [Val.null, Val.vint 2]).values ev⟩ ∧
      (∀ i v, (intCol "x" [Val.null, Val.vint 2]).values.get? i = some v →
        v ≠ Val.null →
        (fillVals (intCol "x" [Val.null, Val.vint 2]).values ev).get? i = some v) ∧
      (∀ i, (intCol "x" [Val.null, Val.vint 2]).values.get? i = some Val.null →
        (fillVals (intCol "x" [Val.null, Val.vint 2]).values ev).get? i
          = ev.get? i) :=
  c3_amended_canonical_precedence wS3 wF3
    [⟨"x", Dtype.i64, [Val.vint 7, Val.vint 2]⟩] 2
    (aliasedField "x" (AliasSpec.direct "ax")) (AliasSpec.direct "ax")
    (PExpr.col "ax") (intCol "x" [Val.null, Val.vint 2])
    (by decide) (by decide) (by decide) (by decide) rfl rfl rfl (by decide)

/-- C5 (amended): when no schema field carries a truthy alias, `unalias`
returns its input unchanged (so no column is fabricated); when some field
does, a field with NO alias and no canonical column makes `unalias` fail
with a missing-column selection error (`pl.col(name)` is emitted
unconditionally) rather than being omitted; the field that IS omitted from
the projection is one with a declared alias that resolves to no expression
and no canonical column. -/
theorem c5_amended_no_alias_no_column (s : Schema) (f : Frame) :
    (s.any fieldTruthy = false → unalias s f = some f) ∧
    (∀ fi ∈ s, s.any fieldTruthy = true → fi.vAlias = none →
      fi.name ∉ colNames f → unalias s f = none) ∧
    (∀ fi ∈ s, ∀ va, (schemaProps s).Nodup → fi.vAlias = some va →
      toExpr f va = some none → fi.name ∉ colNames f →
      ∀ g, unalias s f = some g → fi.name ∉ colNames g) := by
  refine ⟨?_, ?_, ?_⟩
  · intro hfalse
    simp only [unalias]
    rw [if_neg (by simp [hfalse])]
  · intro fi hmem htruthy hva habsent
    simp only [unalias]
    rw [if_pos htruthy]
    rcases hes : fieldExprs f s with _ | es
    · rfl
    · have hfail : evalExpr f (frameHeight f) (PExpr.col fi.name) = none := by
        simp only [evalExpr]
        rw [(findCol_eq_none_iff f fi.name).mpr habsent]
        rfl
      have := selectExprs_none_of_fail f (frameHeight f) es fi.name
        (PExpr.col fi.name) (fieldExprs_entry_plain f s es fi hes hmem hva) hfail
      exact this
  · intro fi hmem va hnodup hva hres habsent g hg
    simp only [unalias] at hg
    by_cases ht : s.any fieldTruthy = true
    · rw [if_pos ht] at hg
      rcases hes : fieldExprs f s with _ | es
      · rw [hes] at hg; simp at hg
      · rw [hes] at hg
        simp only [Option.some_bind] at hg
        rw [selectExprs_names f (frameHeight f) es g hg]
        exact fieldExprs_omits f s es fi va hes hnodup hmem hva hres habsent
    · rw [if_neg ht] at hg
      injection hg with hg
      rw [← hg]
      exact habsent

/-- C5 witness: `c5_amended_no_alias_no_column` at three concrete
instances — pass-through when no alias is truthy; failure for an alias-less
missing column; omission of an aliased field whose alias resolves to
nothing. -/
theorem c5_witness :
    unalias wS5a wF5a = some wF5a ∧
    unalias wS5b wF5b = none ∧
    "q" ∉ colNames [(⟨"r", Dtype.i64, [Val.vint 4]⟩ : Column)] := by
  refine ⟨?_, ?_, ?_⟩
  · exact (c5_amended_no_alias_no_column wS5a wF5a).1 (by decide)
  · exact (c5_amended_no_alias_no_column wS5b wF5b).2.1 (plainField "w")
      (by decide) (by decide) rfl (by decide)
  · exact (c5_amended_no_alias_no_column wS5c wF5c).2.2
      (aliasedField "q" (AliasSpec.direct "missing")) (by decide)
      (AliasSpec.direct "missing") (by decide) rfl rfl (by decide)
      [⟨"r", Dtype.i64, [Val.vint 4]⟩] (by decide)

theorem withColumn_wf (f : Frame) (n : String) (d : Dtype) (vals : List Val)
    (h : Nat) (hwf : WFFrame f h) (hlen : vals.length = h) :
    WFFrame (withColumn f n d vals) h := by
  unfold withColumn
  by_cases hc : (colNames f).contains n
  · rw [if_pos hc]
    intro c hmem
    rcases List.mem_map.mp hmem with ⟨c0, hc0, hrep⟩
    by_cases he : c0.name = n
    · rw [← hrep, if_pos he]
      exact hlen
    · rw [← hrep, if_neg he]
      exact hwf c0 hc0
  · rw [if_neg hc]
    intro c hmem
    rcases List.mem_append.mp hmem with hm | hm
    · exact hwf c hm
    · rcases List.mem_singleton.mp hm with rfl
      exact hlen

theorem frameHeight_withColumn (f : Frame) (n : String) (d : Dtype)
    (vals : List Val) (h : Nat) (hhf : frameHeight f = h) (hlen : vals.length = h) :
    frameHeight (withColumn f n d vals) = h := by
  unfold withColumn
  by_cases hc : (colNames f).contains n
  · rw [if_pos hc]
    cases f with
    | nil => simp [colNames] at hc
    | cons c cs =>
      by_cases hn : c.name = n
      · show (if c.name = n then (⟨n, d, vals⟩ : Column) else c).values.length = h
        rw [if_pos hn]
        exact hlen
      · show (if c.name = n then (⟨n, d, vals⟩ : Column) else c).values.length = h
        rw [if_neg hn]
        exact hhf
  · rw [if_neg hc]
    cases f with
    | nil => exact hlen
    | cons c cs => exact hhf

theorem map_replace_found (g : Frame) (n : String) (x : Column)
    (hnodup : (colNames g).Nodup) (hfind : findCol g n = some x) :
    g.map (fun c => if c.name = n then x else c) = g := by
  induction g with
  | nil => rfl
  | cons c cs ih =>
    have hnd : c.name ∉ colNames cs ∧ (colNames cs).Nodup := by
      rw [colNames_cons] at hnodup
      exact List.nodup_cons.mp hnodup
    by_cases hn : c.name = n
    · rw [findCol_cons_self hn] at hfind
      injection hfind with hfind
      have hmapid : cs.map (fun c' => if c'.name = n then x else c') = cs := by
        conv_rhs => rw [← List.map_id cs]
        apply List.map_congr_left
        intro c' hc'
        have hne : c'.name ≠ n :=
          fun he => hnd.1 (List.mem_map.mpr ⟨c', hc', he.trans hn.symm⟩)
        rw [if_neg hne]
        rfl
      rw [List.map_cons, if_pos hn, hmapid, ← hfind]
    · rw [findCol_cons_ne hn] at hfind
      rw [List.map_cons, if_neg hn, ih hnd.2 hfind]

theorem withColumn_self_eq (g : Frame) (n : String) (d : Dtype) (vals : List Val)
    (hnodup : (colNames g).Nodup) (hfind : findCol g n = some ⟨n, d, vals⟩) :
    withColumn g n d vals = g := by
  unfold withColumn
  have hmem : n ∈ colNames g := by
    rcases findCol_mem hfind with ⟨hm, _⟩
    exact List.mem_map.mpr ⟨⟨n, d, vals⟩, hm, rfl⟩
  rw [if_pos (List.elem_iff.mpr hmem)]
  exact map_replace_found g n ⟨n, d, vals⟩ hnodup hfind

theorem selectCols_names_mem (f : Frame) (L : List String) (g : Frame)
    (hg : selectCols f L = some g) :
    colNames g = L ∧ (∀ n ∈ L, n ∈ colNames f) ∧ (∀ c ∈ g, c ∈ f) := by
  induction L generalizing g with
  | nil =>
    have h2 : some ([] : Frame) = some g := hg
    injection h2 with h2
    rw [← h2]
    exact ⟨rfl, fun n hn => absurd hn (List.not_mem_nil n), fun c hc => absurd hc (List.not_mem_nil c)⟩
  | cons m ms ih =>
    simp only [selectCols] at hg
    rcases hfc : findCol f m with _ | cm
    · rw [hfc] at hg; simp at hg
    · rw [hfc] at hg
      simp only [Option.some_bind] at hg
      rw [Option.map_eq_some'] at hg
      rcases hg with ⟨g', hg', hs⟩
      rcases ih g' hg' with ⟨hn1, hn2, hn3⟩
      rcases findCol_mem hfc with ⟨hcm, hcmn⟩
      refine ⟨?_, ?_, ?_⟩
      · rw [← hs, colNames_cons, hn1, hcmn]
      · intro n hn
        rcases List.mem_cons.mp hn with rfl | hn'
        · exact List.mem_map.mpr ⟨cm, hcm, hcmn⟩
        · exact hn2 n hn'
      · intro c hc
        rw [← hs] at hc
        rcases List.mem_cons.mp hc with rfl | hc'
        · exact hcm
        · exact hn3 c hc'

theorem selectCols_findCol (f : Frame) (L : List String) (g : Frame)
    (hg : selectCols f L = some g) (n : String) (hn : n ∈ L) :
    findCol g n = findCol f n := by
  induction L generalizing g with
  | nil => cases hn
  | cons m ms ih =>
    simp only [selectCols] at hg
    rcases hfc : findCol f m with _ | cm
    · rw [hfc] at hg; simp at hg
    · rw [hfc] at hg
      simp only [Option.some_bind] at hg
      rw [Option.map_eq_some'] at hg
      rcases hg with ⟨g', hg', hs⟩
      rcases findCol_mem hfc with ⟨hcm, hcmn⟩
      by_cases he : n = m
      · subst he
        rw [← hs, findCol_cons_self hcmn, hfc]
      · rw [← hs, findCol_cons_ne (by rw [hcmn]; exact Ne.symm he)]
        exact ih g' hg' (List.mem_cons.mp hn |>.resolve_left he)

theorem selectCols_cons_ne (c : Column) (cs : Frame) (L : List String)
    (h : ∀ n ∈ L, c.name ≠ n) :
    selectCols (c :: cs) L = selectCols cs L := by
  induction L with
  | nil => rfl
  | cons n ns ih =>
    simp only [selectCols]
    rw [findCol_cons_ne (h n (List.mem_cons_self _ _)),
      ih (fun n' hn' => h n' (List.mem_cons.mpr (Or.inr hn')))]

theorem selectCols_self (g : Frame) (hnodup : (colNames g).Nodup) :
    selectCols g (colNames g) = some g := by
  induction g with
  | nil => rfl
  | cons c cs ih =>
    have hnd : c.name ∉ colNames cs ∧ (colNames cs).Nodup := by
      rw [colNames_cons] at hnodup
      exact List.nodup_cons.mp hnodup
    rw [colNames_cons]
    simp only [selectCols]
    rw [findCol_cons_self rfl, Option.some_bind,
      selectCols_cons_ne c cs (colNames cs) (fun n hn => fun e => hnd.1 (e ▸ hn)),
      ih hnd.2]
    rfl

theorem evalExpr_congr (f g : Frame) (h1 : Nat) :
    ∀ e : PExpr, (∀ n ∈ e.colRefs, findCol g n = findCol f n) →
      evalExpr g h1 e = evalExpr f h1 e := by
  intro e
  induction e with
  | col n =>
    intro hag
    simp only [evalExpr]
    rw [hag n (List.mem_singleton.mpr rfl)]
  | litInt n => intro _; rfl
  | add a b iha ihb =>
    intro hag
    simp only [evalExpr]
    rw [iha (fun n hn => hag n (List.mem_append.mpr (Or.inl hn))),
      ihb (fun n hn => hag n (List.mem_append.mpr (Or.inr hn)))]
  | mul a b iha ihb =>
    intro hag
    simp only [evalExpr]
    rw [iha (fun n hn => hag n (List.mem_append.mpr (Or.inl hn))),
      ihb (fun n hn => hag n (List.mem_append.mpr (Or.inr hn)))]
  | fillNullE a b iha ihb =>
    intro hag
    simp only [evalExpr]
    rw [iha (fun n hn => hag n (List.mem_append.mpr (Or.inl hn))),
      ihb (fun n hn => hag n (List.mem_append.mpr (Or.inr hn)))]
  | listGet src i =>
    intro hag
    simp only [evalExpr]
    rw [hag src (List.mem_singleton.mpr rfl)]

theorem stepCol_congr (s : Schema) (f g : Frame) (c : String)
    (hag : ∀ n ∈ sourcesOfC s c, findCol g n = findCol f n)
    (hh : frameHeight g = frameHeight f) :
    stepCol s g c = stepCol s f c := by
  rcases hsf : schemaFind s c with _ | fi
  · simp only [stepCol, hsf]
  · rcases hdf : fi.derivedFrom with _ | df
    · simp only [stepCol, hsf, hdf]
    · rcases df with src | e
      · simp only [stepCol, hsf, hdf]
        rw [hag src (by simp [sourcesOfC, hsf, hdf, fieldSources, DerivedFrom.sources])]
      · simp only [stepCol, hsf, hdf]
        rw [hh, evalExpr_congr f g (frameHeight f) e
          (fun n hn => hag n
            (by simp [sourcesOfC, hsf, hdf, fieldSources, DerivedFrom.sources]; exact hn))]

theorem schema_name_inj (s : Schema) (hnodup : (schemaProps s).Nodup)
    {fi fj : FieldInfo} (hi : fi ∈ s) (hj : fj ∈ s) (hn : fi.name = fj.name) :
    fi = fj := by
  induction s with
  | nil => cases hi
  | cons a rest ih =>
    have hnd : a.name ∉ rest.map (·.name) ∧ (rest.map (·.name)).Nodup := by
      rw [schemaProps, List.map_cons] at hnodup
      exact List.nodup_cons.mp hnodup
    rcases List.mem_cons.mp hi with rfl | hi'
    · rcases List.mem_cons.mp hj with rfl | hj'
      · rfl
      · exact absurd (List.mem_map.mpr ⟨fj, hj', hn.symm⟩) hnd.1
    · rcases List.mem_cons.mp hj with rfl | hj'
      · exact absurd (List.mem_map.mpr ⟨fi, hi', hn⟩) hnd.1
      · exact ih hnd.2 hi' hj'

theorem isDerivable_mem_derivedNames (s : Schema) (c : String)
    (h : isDerivable s c = true) : c ∈ derivedNames s := by
  rw [isDerivable] at h
  rcases hsf : schemaFind s c with _ | fi
  · rw [hsf] at h; cases h
  · rw [hsf] at h
    rcases schemaFind_mem hsf with ⟨hm, hn⟩
    exact List.mem_map.mpr ⟨fi, List.mem_filter.mpr ⟨hm, h⟩, hn⟩

theorem isDerivable_false_of_not_mem (s : Schema) (c : String)
    (h : c ∉ derivedNames s) : isDerivable s c = false := by
  cases hb : isDerivable s c
  · rfl
  · exact absurd (isDerivable_mem_derivedNames s c hb) h

theorem mem_derivedNames_isDerivable (s : Schema) (hnodup : (schemaProps s).Nodup)
    (c : String) (hc : c ∈ derivedNames s) : isDerivable s c = true := by
  rcases List.mem_map.mp hc with ⟨fi, hfi, hname⟩
  rcases List.mem_filter.mp hfi with ⟨hmem, hder⟩
  rw [isDerivable]
  rcases hsf : schemaFind s c with _ | fj
  · exact absurd (List.mem_map.mpr ⟨fi, hmem, hname⟩)
      ((schemaFind_eq_none_iff s c).mp hsf)
  · rcases schemaFind_mem hsf with ⟨hmj, hnj⟩
    rw [← schema_name_inj s hnodup hmem hmj (by rw [hname, hnj])]
    exact hder

theorem deriveGo_inl_nonderivable (s : Schema) (fuel : Nat) (f : Frame)
    (c : String) (hnd : isDerivable s c = false) (hfuel : 0 < fuel) :
    deriveGo s fuel f (Sum.inl c) = some (f, []) := by
  cases fuel with
  | zero => cases hfuel
  | succ m =>
    rcases hsf : schemaFind s c with _ | fi
    · simp [deriveGo, hsf]
    · rcases hdf : fi.derivedFrom with _ | df
      · simp [deriveGo, hsf, hdf]
      · simp only [isDerivable, hsf, hdf] at hnd
        simp at hnd

theorem deriveGo_inr_nonderivable (s : Schema) (roots : List String)
    (hnd : ∀ r ∈ roots, isDerivable s r = false) :
    ∀ (fuel : Nat) (f : Frame), deriveGo s fuel f (Sum.inr roots)
      = if roots.length < fuel then some (f, []) else none := by
  induction roots with
  | nil =>
    intro fuel f
    cases fuel with
    | zero =>
      rw [if_neg (by simp)]
      rfl
    | succ m =>
      rw [if_pos (by simp)]
      rfl
  | cons r rs ih =>
    intro fuel f
    cases fuel with
    | zero =>
      rw [if_neg (by simp)]
      rfl
    | succ m =>
      have hr := hnd r (List.mem_cons_self _ _)
      cases m with
      | zero =>
        show (deriveGo s 0 f (Sum.inl r)).bind _ = _
        rw [show deriveGo s 0 f (Sum.inl r) = none from rfl]
        rw [if_neg (by simp [List.length_cons])]
        rfl
      | succ k =>
        have h1 : deriveGo s (k + 1) f (Sum.inl r) = some (f, []) :=
          deriveGo_inl_nonderivable s (k + 1) f r hr (Nat.succ_pos k)
        show (deriveGo s (k + 1) f (Sum.inl r)).bind _ = _
        rw [h1]
        simp only [Option.some_bind]
        rw [ih (fun x hx => hnd x (List.mem_cons.mpr (Or.inr hx))) (k + 1) f]
        by_cases hlen : rs.length < k + 1
        · rw [if_pos hlen,
            if_pos (by rw [List.length_cons]; omega)]
          simp
        · rw [if_neg hlen,
            if_neg (by rw [List.length_cons]; omega)]
          rfl

theorem deriveGo_inl_closed (s : Schema) (hbs : BaseSources s) (fuel : Nat)
    (f : Frame) (c : String) (hder : isDerivable s c = true) :
    deriveGo s fuel f (Sum.inl c)
      = if fuelNeeded s c < fuel then
          (stepCol s f c).map (fun col => (withColumn f c col.dtype col.values, [c]))
        else none := by
  rcases hsf : schemaFind s c with _ | fi
  · simp [isDerivable, hsf] at hder
  · rcases hdf : fi.derivedFrom with _ | df
    · simp [isDerivable, hsf, hdf] at hder
    · rcases df with src | e
      · have hfn : fuelNeeded s c = 0 := by simp [fuelNeeded, hsf, hdf]
        cases fuel with
        | zero =>
          rw [hfn, if_neg (by omega)]
          rfl
        | succ m =>
          rw [hfn, if_pos (by omega)]
          simp only [deriveGo, hsf, hdf, evalExpr, stepCol]
          rcases hfc : findCol f src with _ | cv
          · rfl
          · rfl
      · have hfn : fuelNeeded s c = e.rootNames.length + 1 := by
          simp [fuelNeeded, hsf, hdf]
        have hfsrc : fieldSources fi = e.colRefs := by
          simp [fieldSources, hdf, DerivedFrom.sources]
        have hroots : ∀ r ∈ e.rootNames.reverse, isDerivable s r = false := by
          intro r hr
          apply isDerivable_false_of_not_mem
          apply hbs fi (schemaFind_mem hsf).1
          rw [hfsrc]
          exact List.mem_dedup.mp (List.mem_reverse.mp hr)
        cases fuel with
        | zero =>
          rw [if_neg (by omega)]
          rfl
        | succ m =>
          simp only [deriveGo, hsf, hdf]
          rw [deriveGo_inr_nonderivable s e.rootNames.reverse hroots m f]
          by_cases hlen : e.rootNames.length < m
          · rw [if_pos (by rw [List.length_reverse]; exact hlen),
              if_pos (by rw [hfn]; omega)]
            simp only [Option.some_bind, stepCol, hsf, hdf]
            rcases hev : evalExpr f (frameHeight f) e with _ | vs
            · rfl
            · rfl
          · rw [if_neg (by rw [List.length_reverse]; exact hlen),
              if_neg (by rw [hfn]; omega)]
            rfl

theorem mem_colNames_withColumn (f : Frame) (cn : String) (d : Dtype)
    (vals : List Val) (n : String)
    (hn : n ∈ colNames (withColumn f cn d vals)) : n ∈ colNames f ∨ n = cn := by
  unfold withColumn at hn
  by_cases hc : (colNames f).contains cn
  · rw [if_pos hc] at hn
    rcases List.mem_map.mp hn with ⟨c1, hc1, hname⟩
    rcases List.mem_map.mp hc1 with ⟨c0, hc0, hrep⟩
    by_cases he : c0.name = cn
    · rw [if_pos he] at hrep
      right
      rw [← hname, ← hrep]
    · rw [if_neg he] at hrep
      left
      exact List.mem_map.mpr ⟨c0, hc0, by rw [hrep, hname]⟩
  · rw [if_neg hc] at hn
    rcases List.mem_map.mp hn with ⟨c1, hc1, hname⟩
    rcases List.mem_append.mp hc1 with hm | hm
    · left
      exact List.mem_map.mpr ⟨c1, hm, hname⟩
    · rcases List.mem_singleton.mp hm with rfl
      right
      exact hname.symm

theorem deriveGo_names (s : Schema) : ∀ (fuel : Nat) (f : Frame)
    (x : String ⊕ List String) (p : Frame × List String),
    deriveGo s fuel f x = some p →
    ∀ n, n ∈ colNames p.1 → n ∈ colNames f ∨ n ∈ derivedNames s := by
  intro fuel
  induction fuel with
  | zero => intro f x p hp; cases hp
  | succ m ih =>
    intro f x p hp n hn
    rcases x with c | rs
    · rcases hsf : schemaFind s c with _ | fi
      · simp only [deriveGo, hsf] at hp
        injection hp with hp
        rw [← hp] at hn
        exact Or.inl hn
      · rcases hdf : fi.derivedFrom with _ | df
        · simp only [deriveGo, hsf, hdf] at hp
          injection hp with hp
          rw [← hp] at hn
          exact Or.inl hn
        · have hcd : c ∈ derivedNames s := by
            apply isDerivable_mem_derivedNames
            simp [isDerivable, hsf, hdf]
          rcases df with src | e
          · simp only [deriveGo, hsf, hdf] at hp
            rcases hev : evalExpr f (frameHeight f) (PExpr.col src) with _ | vs
            · rw [hev] at hp; cases hp
            · rw [hev] at hp
              simp only [Option.map_some'] at hp
              injection hp with hp
              rw [← hp] at hn
              rcases mem_colNames_withColumn f c fi.defaultDtype _ n hn with h | rfl
              · exact Or.inl h
              · exact Or.inr hcd
          · simp only [deriveGo, hsf, hdf] at hp
            rcases hgo : deriveGo s m f (Sum.inr e.rootNames.reverse) with _ | p1
            · rw [hgo] at hp; cases hp
            · rw [hgo] at hp
              simp only [Option.some_bind] at hp
              rcases hev : evalExpr p1.1 (frameHeight p1.1) e with _ | vs
              · rw [hev] at hp; cases hp
              · rw [hev] at hp
                simp only [Option.map_some'] at hp
                injection hp with hp
                rw [← hp] at hn
                rcases mem_colNames_withColumn p1.1 c fi.defaultDtype _ n hn with h | rfl
                · exact ih f (Sum.inr e.rootNames.reverse) p1 hgo n h
                · exact Or.inr hcd
    · rcases rs with _ | ⟨r, rs'⟩
      · simp only [deriveGo] at hp
        injection hp with hp
        rw [← hp] at hn
        exact Or.inl hn
      · rcases hgo : deriveGo s m f (Sum.inl r) with _ | p1
        · rw [show deriveGo s (m + 1) f (Sum.inr (r :: rs'))
              = (deriveGo s m f (Sum.inl r)).bind
                (fun p => (deriveGo s m p.1 (Sum.inr rs')).map
                  (fun q => (q.1, p.2 ++ q.2))) from rfl, hgo] at hp
          cases hp
        · rw [show deriveGo s (m + 1) f (Sum.inr (r :: rs'))
              = (deriveGo s m f (Sum.inl r)).bind
                (fun p => (deriveGo s m p.1 (Sum.inr rs')).map
                  (fun q => (q.1, p.2 ++ q.2))) from rfl, hgo] at hp
          simp only [Option.some_bind] at hp
          rcases hgo2 : deriveGo s m p1.1 (Sum.inr rs') with _ | p2
          · rw [hgo2] at hp; cases hp
          · rw [hgo2] at hp
            simp only [Option.map_some'] at hp
            injection hp with hp
            rw [← hp] at hn
            rcases ih p1.1 (Sum.inr rs') p2 hgo2 n hn with h | h
            · exact ih f (Sum.inl r) p1 hgo n h
            · exact Or.inr h

theorem deriveLoop_names (s : Schema) (fuel : Nat) :
    ∀ (toDer : List String) (f : Frame) (derived : List String)
      (p : Frame × List String),
      deriveLoop s fuel f toDer derived = some p →
      ∀ n, n ∈ colNames p.1 → n ∈ colNames f ∨ n ∈ derivedNames s := by
  intro toDer
  induction toDer with
  | nil =>
    intro f derived p hp n hn
    have h2 : some (f, derived) = some p := hp
    injection h2 with h2
    rw [← h2] at hn
    exact Or.inl hn
  | cons c rest ih =>
    intro f derived p hp n hn
    simp only [deriveLoop] at hp
    by_cases hc : (derived.contains c) = true
    · rw [if_pos hc] at hp
      exact ih f derived p hp n hn
    · rw [if_neg hc] at hp
      rcases hdc : deriveColumn s fuel f c with _ | p1
      · rw [hdc] at hp; cases hp
      · rw [hdc] at hp
        simp only [Option.some_bind] at hp
        rcases ih p1.1 _ p hp n hn with h | h
        · exact deriveGo_names s fuel f (Sum.inl c) p1 hdc n h
        · exact Or.inr h

theorem derivedNames_subset_props (s : Schema) :
    ∀ n ∈ derivedNames s, n ∈ schemaProps s := by
  intro n hn
  rcases List.mem_map.mp hn with ⟨fi, hfi, hname⟩
  exact List.mem_map.mpr ⟨fi, (List.mem_filter.mp hfi).1, hname⟩

/-- C1 (amended): for every schema and input frame, a successful `derive()`
orders its output columns as: first every schema-declared field present in
the union of the original input columns and the requested derived columns,
in schema declaration order; then every remaining member of that union —
each an original input column not part of the schema — in the UNION SET'S
ITERATION ORDER (Python hash order, modelled by the enumeration `uset`),
not in the columns' original relative order as the claim states. -/
theorem c1_amended_column_order (s : Schema) (uset : List String) (fuel : Nat)
    (columns : Option (List String)) (f g : Frame)
    (henum : EnumOf uset (colNames f ++ columns.getD (derivedNames s)))
    (hg : derive s uset fuel columns f = some g) :
    colNames g
        = (schemaProps s).filter (fun x => uset.contains x)
          ++ uset.filter (fun x => !(schemaProps s).contains x)
      ∧ ∀ x ∈ uset.filter (fun x => !(schemaProps s).contains x),
          x ∈ colNames f := by
  unfold derive at hg
  rcases hdl : deriveLoop s fuel f (columns.getD (derivedNames s)) [] with _ | p
  · rw [hdl] at hg; cases hg
  · rw [hdl] at hg
    simp only [Option.some_bind] at hg
    rcases selectCols_names_mem p.1 _ g hg with ⟨hn1, hn2, _⟩
    have htail : uset.filter (fun x => !(deriveFirstCols s uset).contains x)
        = uset.filter (fun x => !(schemaProps s).contains x) := by
      apply List.filter_congr
      intro x hx
      show (!(deriveFirstCols s uset).contains x) = (!(schemaProps s).contains x)
      have hiff : x ∈ deriveFirstCols s uset ↔ x ∈ schemaProps s :=
        ⟨fun h => (List.mem_filter.mp h).1,
         fun h => List.mem_filter.mpr ⟨h, List.elem_iff.mpr hx⟩⟩
      by_cases hp : x ∈ schemaProps s
      · have h1 : (deriveFirstCols s uset).contains x = true :=
          List.elem_iff.mpr (hiff.mpr hp)
        have h2 : (schemaProps s).contains x = true := List.elem_iff.mpr hp
        rw [h1, h2]
      · have h1 : (deriveFirstCols s uset).contains x = false :=
          Bool.eq_false_iff.mpr (fun h => hp (hiff.mp (List.elem_iff.mp h)))
        have h2 : (schemaProps s).contains x = false :=
          Bool.eq_false_iff.mpr (fun h => hp (List.elem_iff.mp h))
        rw [h1, h2]
    constructor
    · rw [hn1]
      unfold deriveOutCols deriveFirstCols at htail ⊢
      rw [htail]
    · intro x hx
      rcases List.mem_filter.mp hx with ⟨hxu, hxp⟩
      have hxnp : x ∉ schemaProps s := by
        intro hmem
        have h2 : (schemaProps s).contains x = true := List.elem_iff.mpr hmem
        rw [h2] at hxp
        exact absurd hxp (by decide)
      have hxout : x ∈ deriveOutCols s uset := by
        unfold deriveOutCols
        rw [htail]
        exact List.mem_append.mpr (Or.inr hx)
      have hxp1 : x ∈ colNames p.1 := hn2 x hxout
      rcases deriveLoop_names s fuel _ f [] p hdl x hxp1 with h | h
      · exact h
      · exact absurd (derivedNames_subset_props s x h) hxnp

theorem c1_witness :
    EnumOf ["aa", "zz"]
        (colNames exF1 ++ (none : Option (List String)).getD (derivedNames exS1)) ∧
    derive exS1 ["aa", "zz"] 1 none exF1 = some exG1 ∧
    (colNames exG1
        = (schemaProps exS1).filter (fun x => List.contains ["aa", "zz"] x)
          ++ List.filter (fun x => !(schemaProps exS1).contains x) ["aa", "zz"]
      ∧ ∀ x ∈ List.filter (fun x => !(schemaProps exS1).contains x) ["aa", "zz"],
          x ∈ colNames exF1) :=
  ⟨by decide, by decide,
   c1_amended_column_order exS1 ["aa", "zz"] 1 none exF1 exG1 (by decide) (by decide)⟩

/-- C7 (amended): the per-invocation memo is consulted only by the TOP-LEVEL
loop of `derive()`: if processing the prefix `pre` of the to-derive list has
recorded `c` in `derived_columns`, a later top-level occurrence of `c` is
skipped, so removing it changes nothing.  (The memo is NOT consulted inside
`_derive_column` while resolving `Expression` roots: `c7_counterexample`
shows a column derived twice in one invocation through a root, so the
original claim's "including one derived transitively" part is false.) -/
theorem c7_amended_top_level_memo (s : Schema) (fuel : Nat) :
    ∀ (pre : List String) (f : Frame) (derived : List String)
      (f' : Frame) (ds : List String),
      deriveLoop s fuel f pre derived = some (f', ds) →
      ∀ (c : String), c ∈ ds → ∀ (rest : List String),
        deriveLoop s fuel f (pre ++ c :: rest) derived
          = deriveLoop s fuel f (pre ++ rest) derived := by
  intro pre
  induction pre with
  | nil =>
    intro f derived f' ds hpre c hc rest
    have h2 : some (f, derived) = some (f', ds) := hpre
    injection h2 with h2
    have hds : derived = ds := congrArg Prod.snd h2
    have hcontains : derived.contains c = true :=
      List.elem_iff.mpr (hds ▸ hc)
    show deriveLoop s fuel f (c :: rest) derived = deriveLoop s fuel f rest derived
    simp only [deriveLoop, hcontains, if_true]
  | cons a pre' ih =>
    intro f derived f' ds hpre c hc rest
    simp only [deriveLoop, List.cons_append] at hpre ⊢
    by_cases ha : (derived.contains a) = true
    · rw [if_pos ha] at hpre ⊢
      rw [if_pos ha]
      exact ih f derived f' ds hpre c hc rest
    · rw [if_neg ha] at hpre ⊢
      rw [if_neg ha]
      rcases hdc : deriveColumn s fuel f a with _ | p1
      · rfl
      · rw [hdc] at hpre
        simp only [Option.some_bind] at hpre ⊢
        exact ih p1.1 (derived ++ p1.2) f' ds hpre c hc rest

theorem c7_witness :
    deriveLoop exS7 3 exF7 ["x"] []
        = some ([intCol "foo" [Val.vint 1], intCol "x" [Val.vint 1]], ["x"]) ∧
    "x" ∈ ["x"] ∧
    deriveLoop exS7 3 exF7 (["x"] ++ "x" :: ["a"]) []
      = deriveLoop exS7 3 exF7 (["x"] ++ ["a"]) [] :=
  ⟨by decide, by decide,
   c7_amended_top_level_memo exS7 3 ["x"] exF7 []
     [intCol "foo" [Val.vint 1], intCol "x" [Val.vint 1]] ["x"] (by decide)
     "x" (by decide) ["a"]⟩

theorem stepCol_name (s : Schema) (f : Frame) (c : String) (col : Column)
    (h : stepCol s f c = some col) : col.name = c := by
  rcases hsf : schemaFind s c with _ | fi
  · simp only [stepCol, hsf] at h
    cases h
  · rcases hdf : fi.derivedFrom with _ | df
    · simp only [stepCol, hsf, hdf] at h
      cases h
    · rcases df with src | e
      · simp only [stepCol, hsf, hdf] at h
        rw [Option.map_eq_some'] at h
        rcases h with ⟨cv, _, hcol⟩
        rw [← hcol]
      · simp only [stepCol, hsf, hdf] at h
        rw [Option.map_eq_some'] at h
        rcases h with ⟨vs, _, hcol⟩
        rw [← hcol]

theorem stepCol_length (s : Schema) (f : Frame) (c : String) (col : Column)
    (hwf : WFFrame f (frameHeight f)) (h : stepCol s f c = some col) :
    col.values.length = frameHeight f := by
  rcases hsf : schemaFind s c with _ | fi
  · simp only [stepCol, hsf] at h
    cases h
  · rcases hdf : fi.derivedFrom with _ | df
    · simp only [stepCol, hsf, hdf] at h
      cases h
    · rcases df with src | e
      · simp only [stepCol, hsf, hdf] at h
        rw [Option.map_eq_some'] at h
        rcases h with ⟨cv, hcv, hcol⟩
        rw [← hcol]
        show (cv.values.map (castVal fi.defaultDtype)).length = frameHeight f
        rw [List.length_map]
        exact hwf cv (findCol_mem hcv).1
      · simp only [stepCol, hsf, hdf] at h
        rw [Option.map_eq_some'] at h
        rcases h with ⟨vs, hvs, hcol⟩
        rw [← hcol]
        show (vs.map (castVal fi.defaultDtype)).length = frameHeight f
        rw [List.length_map]
        exact evalExpr_length f (frameHeight f) e vs hwf hvs

theorem mem_deriveOutCols (s : Schema) (uset : List String) (x : String) :
    x ∈ deriveOutCols s uset ↔ x ∈ uset := by
  constructor
  · intro hx
    rcases List.mem_append.mp hx with h | h
    · exact List.elem_iff.mp (List.mem_filter.mp h).2
    · exact (List.mem_filter.mp h).1
  · intro hx
    by_cases hf : x ∈ deriveFirstCols s uset
    · exact List.mem_append.mpr (Or.inl hf)
    · refine List.mem_append.mpr (Or.inr (List.mem_filter.mpr ⟨hx, ?_⟩))
      have h0 : (deriveFirstCols s uset).contains x = false :=
        Bool.eq_false_iff.mpr (fun hc => hf (List.elem_iff.mp hc))
      rw [h0]
      rfl

theorem deriveOutCols_nodup (s : Schema) (uset : List String)
    (hu : uset.Nodup) (hp : (schemaProps s).Nodup) :
    (deriveOutCols s uset).Nodup := by
  unfold deriveOutCols
  rw [List.nodup_append]
  refine ⟨List.Nodup.filter _ hp, List.Nodup.filter _ hu, ?_⟩
  intro x hx1 hx2
  rcases List.mem_filter.mp hx2 with ⟨_, hnc⟩
  have h0 : (deriveFirstCols s uset).contains x = true := List.elem_iff.mpr hx1
  rw [h0] at hnc
  exact absurd hnc (by decide)

theorem deriveLoop_run1 (s : Schema) (hbs : BaseSources s)
    (hnodup : (schemaProps s).Nodup) (f : Frame)
    (hwff : WFFrame f (frameHeight f)) (fuel : Nat) :
    ∀ (toDer : List String) (fk : Frame) (derived : List String),
      (∀ c ∈ toDer, c ∈ derivedNames s) →
      (∀ n, n ∉ derivedNames s → findCol fk n = findCol f n) →
      WFFrame fk (frameHeight f) → frameHeight fk = frameHeight f →
      (∀ c ∈ derived, findCol fk c = stepCol s f c) →
      ∀ (fl : Frame) (ds : List String),
        deriveLoop s fuel fk toDer derived = some (fl, ds) →
        (∀ n, n ∉ derivedNames s → findCol fl n = findCol f n) ∧
        WFFrame fl (frameHeight f) ∧ frameHeight fl = frameHeight f ∧
        (∀ c ∈ ds, findCol fl c = stepCol s f c) ∧
        (∀ c ∈ toDer, c ∈ ds) ∧ (∀ c ∈ derived, c ∈ ds) ∧
        (∀ c ∈ toDer, fuelNeeded s c < fuel ∨ c ∈ derived) := by
  intro toDer
  induction toDer with
  | nil =>
    intro fk derived hsub hagree hwfk hfhk hder fl ds hrun
    have h2 : some (fk, derived) = some (fl, ds) := hrun
    injection h2 with h2
    have hf1 : fk = fl := congrArg Prod.fst h2
    have hf2 : derived = ds := congrArg Prod.snd h2
    subst hf1
    subst hf2
    exact ⟨hagree, hwfk, hfhk, hder,
      fun c hc => absurd hc (List.not_mem_nil c),
      fun c hc => hc,
      fun c hc => absurd hc (List.not_mem_nil c)⟩
  | cons c rest ih =>
    intro fk derived hsub hagree hwfk hfhk hder fl ds hrun
    simp only [deriveLoop] at hrun
    by_cases hcd : (derived.contains c) = true
    · rw [if_pos hcd] at hrun
      have hres := ih fk derived
        (fun x hx => hsub x (List.mem_cons.mpr (Or.inr hx)))
        hagree hwfk hfhk hder fl ds hrun
      refine ⟨hres.1, hres.2.1, hres.2.2.1, hres.2.2.2.1, ?_,
        hres.2.2.2.2.2.1, ?_⟩
      · intro x hx
        rcases List.mem_cons.mp hx with rfl | hx'
        · exact hres.2.2.2.2.2.1 x (List.elem_iff.mp hcd)
        · exact hres.2.2.2.2.1 x hx'
      · intro x hx
        rcases List.mem_cons.mp hx with rfl | hx'
        · exact Or.inr (List.elem_iff.mp hcd)
        · exact hres.2.2.2.2.2.2 x hx'
    · rw [if_neg hcd] at hrun
      have hcderiv : c ∈ derivedNames s := hsub c (List.mem_cons_self _ _)
      have hderivable : isDerivable s c = true :=
        mem_derivedNames_isDerivable s hnodup c hcderiv
      rw [show deriveColumn s fuel fk c = deriveGo s fuel fk (Sum.inl c) from rfl,
        deriveGo_inl_closed s hbs fuel fk c hderivable] at hrun
      by_cases hfn : fuelNeeded s c < fuel
      · rw [if_pos hfn] at hrun
        rcases hsc : stepCol s fk c with _ | col
        · rw [hsc] at hrun; cases hrun
        · rw [hsc] at hrun
          simp only [Option.map_some', Option.some_bind] at hrun
          have hsrc : ∀ n ∈ sourcesOfC s c, findCol fk n = findCol f n := by
            intro n hn
            apply hagree
            rcases hsf : schemaFind s c with _ | fi
            · simp only [sourcesOfC, hsf] at hn
              exact absurd hn (List.not_mem_nil n)
            · simp only [sourcesOfC, hsf] at hn
              exact hbs fi (schemaFind_mem hsf).1 n hn
          have hstepc : stepCol s fk c = stepCol s f c :=
            stepCol_congr s f fk c hsrc hfhk
          have hscf : stepCol s f c = some col := by
            rw [← hstepc]
            exact hsc
          have hcolname : col.name = c := stepCol_name s f c col hscf
          have hcollen : col.values.length = frameHeight f :=
            stepCol_length s f c col hwff hscf
          have hagree2 : ∀ n, n ∉ derivedNames s →
              findCol (withColumn fk c col.dtype col.values) n = findCol f n := by
            intro n hnd
            rw [findCol_withColumn_other fk c n col.dtype col.values
              (fun he => hnd (he ▸ hcderiv))]
            exact hagree n hnd
          have hwfk2 : WFFrame (withColumn fk c col.dtype col.values) (frameHeight f) :=
            withColumn_wf fk c col.dtype col.values (frameHeight f) hwfk hcollen
          have hfhk2 : frameHeight (withColumn fk c col.dtype col.values) = frameHeight f :=
            frameHeight_withColumn fk c col.dtype col.values (frameHeight f) hfhk hcollen
          have hder2 : ∀ x ∈ derived ++ [c],
              findCol (withColumn fk c col.dtype col.values) x = stepCol s f x := by
            intro x hx
            rcases List.mem_append.mp hx with hx' | hx'
            · have hxc : x ≠ c := fun he => hcd (List.elem_iff.mpr (he ▸ hx'))
              rw [findCol_withColumn_other fk c x col.dtype col.values hxc]
              exact hder x hx'
            · rcases List.mem_singleton.mp hx' with rfl
              rw [findCol_withColumn_self, hscf, ← hcolname]
          have hres := ih (withColumn fk c col.dtype col.values) (derived ++ [c])
            (fun x hx => hsub x (List.mem_cons.mpr (Or.inr hx)))
            hagree2 hwfk2 hfhk2 hder2 fl ds hrun
          refine ⟨hres.1, hres.2.1, hres.2.2.1, hres.2.2.2.1, ?_, ?_, ?_⟩
          · intro x hx
            rcases List.mem_cons.mp hx with rfl | hx'
            · exact hres.2.2.2.2.2.1 x
                (List.mem_append.mpr (Or.inr (List.mem_singleton.mpr rfl)))
            · exact hres.2.2.2.2.1 x hx'
          · intro x hx
            exact hres.2.2.2.2.2.1 x (List.mem_append.mpr (Or.inl hx))
          · intro x hx
            rcases List.mem_cons.mp hx with rfl | hx'
            · exact Or.inl hfn
            · rcases hres.2.2.2.2.2.2 x hx' with h | h
              · exact Or.inl h
              · rcases List.mem_append.mp h with h' | h'
                · exact Or.inr h'
                · rcases List.mem_singleton.mp h' with rfl
                  exact Or.inl hfn
      · rw [if_neg hfn] at hrun
        simp at hrun

theorem deriveLoop_run2 (s : Schema) (hbs : BaseSources s)
    (hnodup : (schemaProps s).Nodup) (g : Frame)
    (hgnodup : (colNames g).Nodup) (fuel : Nat)
    (hstep : ∀ c ∈ derivedNames s, fuelNeeded s c < fuel ∧
      ∃ col, stepCol s g c = some col ∧ findCol g c = some col) :
    ∀ (toDer : List String), (∀ c ∈ toDer, c ∈ derivedNames s) →
      ∀ (derived : List String),
        ∃ ds, deriveLoop s fuel g toDer derived = some (g, ds) := by
  intro toDer
  induction toDer with
  | nil =>
    intro _ derived
    exact ⟨derived, rfl⟩
  | cons c rest ih =>
    intro hsub derived
    by_cases hcd : (derived.contains c) = true
    · rcases ih (fun x hx => hsub x (List.mem_cons.mpr (Or.inr hx))) derived with ⟨ds, hds⟩
      refine ⟨ds, ?_⟩
      simp only [deriveLoop]
      rw [if_pos hcd]
      exact hds
    · have hcderiv : c ∈ derivedNames s := hsub c (List.mem_cons_self _ _)
      have hderivable := mem_derivedNames_isDerivable s hnodup c hcderiv
      rcases hstep c hcderiv with ⟨hfn, col, hsc, hfind⟩
      have hcolname : col.name = c := (findCol_mem hfind).2
      have hwc : withColumn g c col.dtype col.values = g := by
        apply withColumn_self_eq g c col.dtype col.values hgnodup
        rw [hfind, ← hcolname]
      rcases ih (fun x hx => hsub x (List.mem_cons.mpr (Or.inr hx)))
        (derived ++ [c]) with ⟨ds, hds⟩
      refine ⟨ds, ?_⟩
      simp only [deriveLoop]
      rw [if_neg hcd,
        show deriveColumn s fuel g c = deriveGo s fuel g (Sum.inl c) from rfl,
        deriveGo_inl_closed s hbs fuel g c hderivable, if_pos hfn, hsc]
      simp only [Option.map_some', Option.some_bind]
      rw [hwc]
      exact hds

/-- C8 (amended): `derive()` is idempotent under the hypotheses the code
actually needs — not mere acyclicity.  `c8_counterexample` shows an acyclic
schema (`a` derived from column `b`, `b` from column `foo`) where the first
run reads the STALE input value of `b` when defining `a`, so a second run
differs.  When every `ColumnReference` target and `Expression` root is a
non-derived column (`BaseSources`), field names are unique, the input frame
is well-formed and nonempty, and the two invocations enumerate the Python
set `original_columns.union(to_derive)` in the same order (`uset`), a
successful `derive` is a fixpoint: running it again on its output returns
that output unchanged — same columns, order, dtypes and values. -/
theorem c8_amended_idempotent (s : Schema) (uset : List String) (fuel : Nat)
    (f g : Frame) (hbs : BaseSources s) (hnodup : (schemaProps s).Nodup)
    (henum : EnumOf uset (colNames f ++ derivedNames s))
    (hwf : WFFrame f (frameHeight f)) (hne : f ≠ [])
    (hg : derive s uset fuel none f = some g) :
    derive s uset fuel none g = some g := by
  unfold derive at hg ⊢
  simp only [Option.getD_none] at hg ⊢
  rcases hdl : deriveLoop s fuel f (derivedNames s) [] with _ | p
  · rw [hdl] at hg; cases hg
  · rw [hdl] at hg
    obtain ⟨fl, ds⟩ := p
    simp only [Option.some_bind] at hg
    have hrun1 := deriveLoop_run1 s hbs hnodup f hwf fuel (derivedNames s) f []
      (fun c hc => hc) (fun n _ => rfl) hwf rfl
      (fun c hc => absurd hc (List.not_mem_nil c)) fl ds hdl
    obtain ⟨hagree, hwfl, hfhl, hrec, hcov, _, hfuelc⟩ := hrun1
    rcases selectCols_names_mem fl (deriveOutCols s uset) g hg with
      ⟨hgnames, houtmem, hgsub⟩
    have hwfg : WFFrame g (frameHeight f) := fun c hc => hwfl c (hgsub c hc)
    have hgne : g ≠ [] := by
      rcases List.exists_mem_of_ne_nil f hne with ⟨c0, hc0f⟩
      have hc0u : c0.name ∈ uset := henum.2.2 c0.name
        (List.mem_append.mpr (Or.inl (List.mem_map.mpr ⟨c0, hc0f, rfl⟩)))
      have hc0out : c0.name ∈ deriveOutCols s uset :=
        (mem_deriveOutCols s uset c0.name).mpr hc0u
      intro hgnil
      rw [← hgnames, hgnil] at hc0out
      exact absurd hc0out (List.not_mem_nil _)
    have hfhg : frameHeight g = frameHeight f :=
      frameHeight_of_wf g (frameHeight f) hwfg hgne
    have hgnodup : (colNames g).Nodup := by
      rw [hgnames]
      exact deriveOutCols_nodup s uset henum.1 hnodup
    have hfind_g : ∀ n ∈ uset, findCol g n = findCol fl n := by
      intro n hn
      exact selectCols_findCol fl (deriveOutCols s uset) g hg n
        ((mem_deriveOutCols s uset n).mpr hn)
    have hstep2 : ∀ c ∈ derivedNames s, fuelNeeded s c < fuel ∧
        ∃ col, stepCol s g c = some col ∧ findCol g c = some col := by
      intro c hc
      have hcu : c ∈ uset := henum.2.2 c (List.mem_append.mpr (Or.inr hc))
      have hfgc : findCol g c = stepCol s f c := by
        rw [hfind_g c hcu]
        exact hrec c (hcov c hc)
      have hsg : stepCol s g c = stepCol s f c := by
        apply stepCol_congr s f g c ?_ (by rw [hfhg])
        intro n hn
        have hnnd : n ∉ derivedNames s := by
          rcases hsf : schemaFind s c with _ | fi
          · simp only [sourcesOfC, hsf] at hn
            exact absurd hn (List.not_mem_nil n)
          · simp only [sourcesOfC, hsf] at hn
            exact hbs fi (schemaFind_mem hsf).1 n hn
        by_cases hnf : n ∈ colNames f
        · have hnu : n ∈ uset := henum.2.2 n (List.mem_append.mpr (Or.inl hnf))
          rw [hfind_g n hnu]
          exact hagree n hnnd
        · have h1 : findCol f n = none := (findCol_eq_none_iff f n).mpr hnf
          have h2 : findCol g n = none := by
            apply (findCol_eq_none_iff g n).mpr
            intro hng
            rw [hgnames] at hng
            have hnu : n ∈ uset := (mem_deriveOutCols s uset n).mp hng
            rcases List.mem_append.mp (henum.2.1 n hnu) with h | h
            · exact hnf h
            · exact hnnd h
          rw [h1, h2]
      have hfn : fuelNeeded s c < fuel := by
        rcases hfuelc c hc with h | h
        · exact h
        · exact absurd h (List.not_mem_nil c)
      have hcg : c ∈ colNames g := by
        rw [hgnames]
        exact (mem_deriveOutCols s uset c).mpr hcu
      rcases hopt : findCol g c with _ | col
      · exact absurd hcg ((findCol_eq_none_iff g c).mp hopt)
      · refine ⟨hfn, col, ?_, rfl⟩
        rw [hsg, ← hfgc]
        exact hopt
    rcases deriveLoop_run2 s hbs hnodup g hgnodup fuel hstep2 (derivedNames s)
      (fun c hc => hc) [] with ⟨ds2, hds2⟩
    rw [hds2]
    simp only [Option.some_bind]
    rw [← hgnames]
    exact selectCols_self g hgnodup

theorem c8_witness :
    BaseSources wS8 ∧ (schemaProps wS8).Nodup ∧
    EnumOf wUset8 (colNames wF8 ++ derivedNames wS8) ∧
    WFFrame wF8 (frameHeight wF8) ∧ wF8 ≠ [] ∧
    derive wS8 wUset8 5 none wF8 = some wG8 ∧
    derive wS8 wUset8 5 none wG8 = some wG8 :=
  ⟨by decide, by decide, by decide, by decide, by decide, by decide,
   c8_amended_idempotent wS8 wUset8 5 wF8 wG8 (by decide) (by decide)
     (by decide) (by decide) (by decide) (by decide)⟩
